import Mathlib

/-!
Verification of the broccoli distributed task queue (vulnersCom/broccoli).

This file gives a shallow embedding, in Lean 4, of the parts of the code base
that the specification claims talk about:

* the cron expression parser `crontab_parser` and the `crontab` constructor
  (`broccoli/plugins.py`),
* the schedule generator `crontab.start` together with `rewind`
  (`broccoli/plugins.py`, `broccoli/utils.py`),
* the broker payload encoder and decoder (`broccoli/broker.py`),
* the per-request body of the worker child loop
  (`broccoli/worker.py`, `Prefork.init_and_run_worker`),
* the application facade `get_result` / `send_task` and the router
  (`broccoli/app.py`, `broccoli/router.py`),
* the `TaskKiller` plugin (`broccoli/plugins.py`).

Python integers are modelled as `Int`, byte strings as `List Nat`, character
strings as `List Char` or `String`, Python `None`-able values as `Option` or an
explicit `Obj.none` constructor.  Each definition mirrors the corresponding
source function; deviations forced by the modelling are noted in the doc
comment of the definition.
-/

namespace Broccoli

/-! ### Generic helpers -/

/-- A Python object as far as the claims need it: `Obj.none` is Python's
`None`; task arguments, results and exception instances are opaque values. -/
inductive Obj
  | none
  | int (n : Int)
  | str (s : String)
  | exc (ty msg : String)
deriving DecidableEq, Repr

/-- Insert into a `≤`-sorted `List Int`, keeping it sorted. -/
def insertSorted (x : Int) : List Int → List Int
  | [] => [x]
  | y :: ys => if x ≤ y then x :: y :: ys else y :: insertSorted x ys

/-- Insertion sort on `List Int`; models Python's `sorted` on integers. -/
def sortInts (l : List Int) : List Int := l.foldr insertSorted []

/-- Drop consecutive duplicates of a sorted list. -/
def dedupSorted : List Int → List Int
  | [] => []
  | [x] => [x]
  | x :: y :: ys => if x = y then dedupSorted (y :: ys) else x :: dedupSorted (y :: ys)

/-- Models Python's `sorted(set(l))`: sorted distinct elements. -/
def sortedSet (l : List Int) : List Int := dedupSorted (sortInts l)

/-! ### The cron expression parser (`crontab_parser`, plugins.py 203-275)

A part (the text between commas) is matched against the five regular
expressions of `crontab_parser.pats`, in the order the source tries them:
`^(\d+?)-(\d+)/(\d+)$`, `^(\d+?)-(\d+)$`, `^\*/(\d+)$`, `^\*$`, `^(\d+)$`.
Because every capture group is digit-only, each regex is equivalent to a
split of the part at the first `-` (resp. the first `/`) followed by
digit-string checks; the matchers below implement exactly that. -/

/-- `digitsToInt s` is Python's `int(s)` for a digit string (it is total here;
the source only applies `int` to regex groups of the class `\d+`). -/
def digitsToInt (s : List Char) : Int :=
  s.foldl (fun a c => a * 10 + ((c.toNat - 48 : Nat) : Int)) 0

/-- Is `s` a non-empty string of ASCII digits (the language of `^\d+$`)? -/
def allDigits (s : List Char) : Bool :=
  !s.isEmpty && s.all Char.isDigit

/-- Split a string at the first occurrence of `sep`; `none` if absent. -/
def splitFirst (sep : Char) : List Char → Option (List Char × List Char)
  | [] => none
  | c :: cs =>
    if c = sep then some ([], cs)
    else
      match splitFirst sep cs with
      | none => none
      | some (a, b) => some (c :: a, b)

/-- Python's `str.split(sep)`: `"".split` is `[""]`, separators are kept
as empty fields. -/
def splitAll (sep : Char) : List Char → List (List Char)
  | [] => [[]]
  | c :: cs =>
    if c = sep then [] :: splitAll sep cs
    else
      match splitAll sep cs with
      | [] => [[c]]
      | h :: t => (c :: h) :: t

/-- Matcher for `^(\d+?)-(\d+)/(\d+)$`. -/
def matchRangeSteps (part : List Char) : Option (List Char × List Char × List Char) :=
  match splitFirst '-' part with
  | none => none
  | some (a, rest) =>
    match splitFirst '/' rest with
    | none => none
    | some (b, c) =>
      if allDigits a && allDigits b && allDigits c then some (a, b, c) else none

/-- Matcher for `^(\d+?)-(\d+)$`. -/
def matchRange (part : List Char) : Option (List Char × List Char) :=
  match splitFirst '-' part with
  | none => none
  | some (a, b) => if allDigits a && allDigits b then some (a, b) else none

/-- Matcher for `^\*/(\d+)$`. -/
def matchStarSteps (part : List Char) : Option (List Char) :=
  match part with
  | c1 :: c2 :: rest =>
    if c1 = '*' && c2 = '/' && allDigits rest then some rest else none
  | _ => none

/-- `crontab_parser._expand_number` (plugins.py 264-275): convert, then
reject values above `max_` or below `min_`. -/
def expand_number (mn mx : Int) (s : List Char) : Except Unit Int :=
  if mx < digitsToInt s then .error ()
  else if digitsToInt s < mn then .error ()
  else .ok (digitsToInt s)

/-- Python's `range(fr, to+1)` as a list (empty when `to < fr`). -/
def intRangeIncl (fr hi : Int) : List Int :=
  (List.range (hi + 1 - fr).toNat).map (fun i => fr + i)

/-- `crontab_parser._expand_range` on a two-group match (plugins.py 242-249):
both bounds validated, reversed ranges rejected. -/
def expand_range (mn mx : Int) (a b : List Char) : Except Unit (List Int) :=
  match expand_number mn mx a with
  | .error e => .error e
  | .ok fr =>
    match expand_number mn mx b with
    | .error e => .error e
    | .ok todig => if todig < fr then .error () else .ok (intRangeIncl fr todig)

/-- `crontab_parser._expand_star` (plugins.py 261-262):
`list(range(self.min_, self.max_ + self.min_ + 1))` — note the source adds
`min_` to the upper bound, so the result is `[mn, ..., mx + mn]`. -/
def expand_star (mn mx : Int) : List Int := intRangeIncl mn (mx + mn)

/-- Python's `l[::k]` for a positive step `k`: the elements whose index is a
multiple of `k`. -/
def everyNth (k : Nat) (l : List Int) : List Int :=
  (l.enum.filter (fun p => p.1 % k = 0)).map Prod.snd

/-- `crontab_parser._range_steps` (plugins.py 251-254).  The final guard
models Python's `ValueError: slice step cannot be zero` raised by `[::0]`. -/
def range_steps (mn mx : Int) (a b c : List Char) : Except Unit (List Int) :=
  if c.isEmpty then .error ()
  else
    match expand_range mn mx a b with
    | .error e => .error e
    | .ok r =>
      if (digitsToInt c).toNat = 0 then .error ()
      else .ok (everyNth (digitsToInt c).toNat r)

/-- `crontab_parser._star_steps` (plugins.py 256-259), with the same
zero-step guard for `[::0]`. -/
def star_steps (mn mx : Int) (c : List Char) : Except Unit (List Int) :=
  if c.isEmpty then .error ()
  else
    if (digitsToInt c).toNat = 0 then .error ()
    else .ok (everyNth (digitsToInt c).toNat (expand_star mn mx))

/-- `crontab_parser._parse_part` (plugins.py 235-240): try the five patterns
in the source order, raise `invalid filter` when none matches. -/
def parse_part (mn mx : Int) (part : List Char) : Except Unit (List Int) :=
  match matchRangeSteps part with
  | some (a, b, c) => range_steps mn mx a b c
  | none =>
    match matchRange part with
    | some (a, b) => expand_range mn mx a b
    | none =>
      match matchStarSteps part with
      | some c => star_steps mn mx c
      | none =>
        if part = ['*'] then .ok (expand_star mn mx)
        else if allDigits part then
          match expand_number mn mx part with
          | .error e => .error e
          | .ok n => .ok [n]
        else .error ()

/-- The loop body of `crontab_parser.parse` over the comma-separated parts,
accumulating the set union of the part expansions. -/
def parse_go (mn mx : Int) : List (List Char) → List Int → Except Unit (List Int)
  | [], acc => .ok (sortedSet acc)
  | p :: ps, acc =>
    if p.isEmpty then .error ()
    else
      match parse_part mn mx p with
      | .error e => .error e
      | .ok l => parse_go mn mx ps (acc ++ l)

/-- `crontab_parser.parse` (plugins.py 227-233): split on commas, reject
empty parts, union the expansions, return them sorted and distinct. -/
def cp_parse (mn mx : Int) (spec : List Char) : Except Unit (List Int) :=
  parse_go mn mx (splitAll ',' spec) []

instance {ε α : Type} [DecidableEq ε] [DecidableEq α] : DecidableEq (Except ε α) := fun x y =>
  match x, y with
  | .ok a, .ok b => decidable_of_iff (a = b) (by simp)
  | .error a, .error b => decidable_of_iff (a = b) (by simp)
  | .ok _, .error _ => .isFalse (fun h => Except.noConfusion h)
  | .error _, .ok _ => .isFalse (fun h => Except.noConfusion h)

/-! ### The `crontab` constructor (plugins.py 278-327) -/

/-- A value passed for one crontab field: an `int`, a `str`, or an iterable
of ints (list, tuple, set and generic iterables all take the same
`sorted(cronspec)` branch in `_expand_spec`; a set is modelled by the list
of its elements). -/
inductive CronSpec
  | int (n : Int)
  | str (s : List Char)
  | iter (l : List Int)
deriving DecidableEq, Repr

/-- The validation loop at the end of `crontab._expand_spec`
(plugins.py 318-327).  The source iterates over `[result[0], result[-1]]`
but tests `result[0]` in both iterations, so only the first element of the
sorted result is ever compared with the bounds; `result[0]` on an empty
result raises `IndexError`, modelled as an error. -/
def checkFirst (mn mx : Int) (result : List Int) : Except Unit (List Int) :=
  match result with
  | [] => .error ()
  | r0 :: _ => if r0 < mn ∨ mx < r0 then .error () else .ok result

/-- `crontab._expand_spec` (plugins.py 302-327). -/
def expand_spec (cs : CronSpec) (mn mx : Int) : Except Unit (List Int) :=
  match cs with
  | .int n => checkFirst mn mx [n]
  | .str s =>
    match cp_parse mn mx s with
    | .error e => .error e
    | .ok r => checkFirst mn mx r
  | .iter l => checkFirst mn mx (sortInts l)

/-- The expanded field lists of a constructed `crontab` instance. -/
structure CrontabV where
  minute : List Int
  hour : List Int
  day_of_week : List Int
  day_of_month : List Int
  month_of_year : List Int
deriving DecidableEq, Repr

/-- `crontab.__init__` (plugins.py 280-295): expand the five fields with
their bounds, in the source's order (hour, minute, day_of_week,
day_of_month, month_of_year). -/
def crontab_new (minute hour day_of_month month_of_year day_of_week : CronSpec) :
    Except Unit CrontabV :=
  match expand_spec hour 0 23 with
  | .error e => .error e
  | .ok hourL =>
    match expand_spec minute 0 59 with
    | .error e => .error e
    | .ok minuteL =>
      match expand_spec day_of_week 0 6 with
      | .error e => .error e
      | .ok dowL =>
        match expand_spec day_of_month 1 31 with
        | .error e => .error e
        | .ok domL =>
          match expand_spec month_of_year 1 12 with
          | .error e => .error e
          | .ok moyL => .ok ⟨minuteL, hourL, dowL, domL, moyL⟩

/-! ### `rewind` (utils.py 139-155) and the schedule generator
(`crontab.start`, plugins.py 329-355)

`rewind` walks the chains (the expanded field lists, coarsest first) against
the start values.  Python materialises partially-consumed iterators with
`reiter`; on a list chain that is exactly a suffix of the chain, which is how
it is modelled here.  The generator's `yield` sequence is produced with an
explicit fuel bounding the number of years scanned, since the Python
generator is infinite (or raises). -/

/-- The `for v in chain` scan inside `rewind`: the first element `≥ val`
together with the iterator's remaining elements. -/
def scanGe (val : Int) : List Int → Option (Int × List Int)
  | [] => none
  | v :: rest => if val ≤ v then some (v, rest) else scanGe val rest

/-- `rewind(vals, chains)` (utils.py 139-155).  Returns Python's
`(complete, new_chains)`: `reiter(v, chain)` becomes `v :: rest`, the
consumed iterator of the `restarted` case becomes `rest`, and the `for`/
`else` case returns the original chains unchanged. -/
def rewind : List Int → List (List Int) → Bool × List (List Int)
  | _, [] => (false, [])
  | [], _ :: _ => (false, [])
  | val :: restVals, chain :: restChains =>
    match scanGe val chain with
    | none => (true, chain :: restChains)
    | some (v, rest) =>
      if val < v then (false, (v :: rest) :: restChains)
      else
        match rewind restVals restChains with
        | (restarted, restOut) =>
          (false, (if restarted then rest else v :: rest) :: restOut)

/-- A yielded `datetime(y, m, d, h, mi)`. -/
structure DT where
  y : Int
  m : Int
  d : Int
  h : Int
  mi : Int
deriving DecidableEq, Repr

/-- Lexicographic order on yielded datetimes (`datetime` comparison). -/
def DT.le (a b : DT) : Prop :=
  a.y < b.y ∨ (a.y = b.y ∧ (a.m < b.m ∨ (a.m = b.m ∧ (a.d < b.d ∨ (a.d = b.d ∧
    (a.h < b.h ∨ (a.h = b.h ∧ a.mi ≤ b.mi)))))))

instance (a b : DT) : Decidable (DT.le a b) := by unfold DT.le; exact inferInstance

/-- Python's `calendar.isleap`. -/
def isLeap (y : Int) : Bool := y % 4 = 0 && (y % 100 ≠ 0 || y % 400 = 0)

/-- `calendar.monthrange(y, m)[1]`: the number of days of the month, or
`none` for a month outside `1..12` (Python raises `IllegalMonthError`). -/
def monthdays (y m : Int) : Option Int :=
  if m = 1 ∨ m = 3 ∨ m = 5 ∨ m = 7 ∨ m = 8 ∨ m = 10 ∨ m = 12 then some 31
  else if m = 4 ∨ m = 6 ∨ m = 9 ∨ m = 11 then some 30
  else if m = 2 then some (if isLeap y then 29 else 28)
  else none

/-- The innermost `for mi in minute: yield datetime(y, m, d, h, mi)`. -/
def dtsOfMins (y m d h : Int) (mins : List Int) : List DT :=
  mins.map (fun mi => ⟨y, m, d, h, mi⟩)

/-- The `for h in hour` loop of `crontab.start` for one day: after each
hour the minute list is reset to `self.minute` (`cmins`).  Returns the
yields and the final minute list. -/
def hoursRun (y m d : Int) (cmins : List Int) : List Int → List Int → List DT × List Int
  | [], mins => ([], mins)
  | h :: hs, mins =>
    match hoursRun y m d cmins hs cmins with
    | (ys, minsOut) => (dtsOfMins y m d h mins ++ ys, minsOut)

/-- The `for d in day_of_month` loop of `crontab.start` for one month:
`break` on the first day beyond `max_d`, reset the hour list to `self.hour`
(`chours`) after each day.  Returns the yields and the final
(hour list, minute list) state. -/
def daysRun (y m maxd : Int) (chours cmins : List Int) :
    List Int → List Int → List Int → List DT × List Int × List Int
  | [], hours, mins => ([], hours, mins)
  | d :: ds, hours, mins =>
    if maxd < d then ([], hours, mins)
    else
      match hoursRun y m d cmins hours mins with
      | (ys, mins1) =>
        match daysRun y m maxd chours cmins ds chours mins1 with
        | (ys2, st) => (ys ++ ys2, st)

/-- The `for m in month_of_year` loop of `crontab.start` for one year.
`monthdays` returning `none` models the uncaught `IllegalMonthError` from
`monthrange`; the generator dies there, signalled by a `none` final state. -/
def monthsRun (cdays chours cmins : List Int) (y : Int) :
    List Int → List Int → List Int → List Int →
    List DT × Option (List Int × List Int × List Int)
  | [], days, hours, mins => ([], some (days, hours, mins))
  | m :: ms, days, hours, mins =>
    match monthdays y m with
    | none => ([], none)
    | some maxd =>
      match daysRun y m maxd chours cmins days hours mins with
      | (ys, st) =>
        match monthsRun cdays chours cmins y ms cdays st.1 st.2 with
        | (ys2, stOut) => (ys ++ ys2, stOut)

/-- The outer `while 1` loop of `crontab.start`, bounded by `fuel` years.
The Bool result is `true` when the generator raised (`IllegalMonthError`)
while scanning these years, i.e. the yield sequence ends there. -/
def yearsRun (c : CrontabV) : Nat → Int → List Int → List Int → List Int → List Int →
    List DT × Bool
  | 0, _, _, _, _, _ => ([], false)
  | fuel + 1, y, months, days, hours, mins =>
    match monthsRun c.day_of_month c.hour c.minute y months days hours mins with
    | (ys, none) => (ys, true)
    | (ys, some st) =>
      match yearsRun c fuel (y + 1) c.month_of_year st.1 st.2.1 st.2.2 with
      | (ys2, err) => (ys ++ ys2, err)

/-- `crontab.start(start_date)` (plugins.py 329-355): rewind the four used
fields against the start instant's `(month, day, hour, minute)`, add a year
when the rewind completed, then enumerate.  The result is the sequence of
yields over the first `fuel` years and whether the generator raised in
them. -/
def crontab_start (c : CrontabV) (s : DT) (fuel : Nat) : List DT × Bool :=
  match rewind [s.m, s.d, s.h, s.mi] [c.month_of_year, c.day_of_month, c.hour, c.minute] with
  | (complete, [months, days, hours, mins]) =>
    yearsRun c fuel (if complete then s.y + 1 else s.y) months days hours mins
  | _ => ([], false)

/-! ### The broker payload codec (`RedisBroker._get_encoder`, broker.py 86-110)

`pickle.dumps`/`pickle.loads` and `gzip.compress`/`gzip.decompress` are
external library functions; the codec is therefore embedded parametrically
in a serializer `ser`/`deser` and a compressor `comp`/`decomp` over byte
strings (`List Nat`).  Concrete instances used by witnesses model the two
documented framing facts: a protocol-4 pickle starts with byte `0x80` and a
gzip stream starts with the magic byte `0x1f`. -/

/-- The `dumps` closure built by `_get_encoder(gzip_min_length)`: for a
positive threshold, compress when the serialized length reaches it;
otherwise plain serialization. -/
def broker_dumps {α : Type} (ser : α → List Nat) (comp : List Nat → List Nat)
    (gzip_min_length : Nat) (x : α) : List Nat :=
  if 0 < gzip_min_length then
    if gzip_min_length ≤ (ser x).length then comp (ser x) else ser x
  else ser x

/-- The `loads` closure built by `_get_encoder(gzip_min_length)`: for a
positive threshold, sniff the first byte and decompress on the gzip magic
`0x1f`; otherwise plain deserialization with no sniffing. -/
def broker_loads {α : Type} (deser : List Nat → α) (decomp : List Nat → List Nat)
    (gzip_min_length : Nat) (data : List Nat) : α :=
  if 0 < gzip_min_length then
    if data.head? = some 0x1f then deser (decomp data) else deser data
  else deser data

/-- A concrete serializer for witnesses: payloads open with pickle's
protocol marker byte `0x80` (so the first byte is never `0x1f`). -/
def serC (x : List Nat) : List Nat := 0x80 :: x

/-- Inverse of `serC`. -/
def deserC (b : List Nat) : List Nat := b.tail

/-- A concrete compressor for witnesses: output opens with the gzip magic
byte `0x1f`. -/
def compC (b : List Nat) : List Nat := 0x1f :: b

/-- Inverse of `compC`. -/
def decompC (b : List Nat) : List Nat := b.tail

/-! ### The worker child's per-request body
(`Prefork.init_and_run_worker`, worker.py 267-337)

One iteration of the fetch/dispatch/publish loop, from the point where the
blocking fetch has handed back a record.  The booleans of `EmitFlags` model
`'<event>' in events` (the master only subscribes handlers it has); `emit`
is further guarded by `not terminated`, and the iteration is modelled in the
steady state `terminated = False`.  The behaviour of the user task body is
an oracle `RunOutcome` naming which dispatch arm of worker.py 296-337 fires;
`put_result` retries on `BrokerError` until it succeeds, so publishing is
modelled as the eventual single append. -/

/-- Which events the child emits (membership of the `events` list). -/
structure EmitFlags where
  task_unknown : Bool
  task_expires : Bool
  task_start : Bool
  task_done : Bool
  task_interrupt : Bool
  task_exception : Bool
deriving DecidableEq, Repr

/-- All events subscribed. -/
def allFlags : EmitFlags := ⟨true, true, true, true, true, true⟩

/-- An event sent over the child's pipe (payload reduced to what the claims
inspect). -/
inductive WEvent
  | worker_start
  | broker_error
  | task_unknown (task_name : String)
  | task_expires (task_name : String)
  | task_start (task_name : String) (start_time : Int)
  | task_done (task_name : String)
  | task_interrupt (task_name : String)
  | task_exception (task_name : String)
deriving DecidableEq, Repr

/-- The task instance as the loop sees it: `task.id` and the effective
`task.expires` attribute (the request value if the request carries the key,
else the class default, `None` unless overridden). -/
structure WorkerTask where
  id : String
  expires : Option Int
deriving DecidableEq, Repr

/-- What `task.run(*args, **kwargs)` did, i.e. which `except`/`else` arm of
worker.py 296-337 handles the call. -/
inductive RunOutcome
  | ret (v : Obj)
  | interrupt (e : Obj)
  | throwsExc (e : Obj)
  | otherExc (e : Obj)
deriving DecidableEq, Repr

/-- The observable effects of one iteration. -/
structure IterOut where
  emissions : List WEvent
  published : List (String × Obj × Obj)
  ran : Bool
deriving DecidableEq, Repr

/-- `Broccoli.put_result(task_id, value, exc)` (app.py 128-132) delegates
`(value, exc)` to the broker keyed by the id. -/
def put_result_record (task_id : String) (value exc : Obj) : String × Obj × Obj :=
  (task_id, value, exc)

/-- The guard `task.expires and task.expires < start_time`
(worker.py 283): Python truthiness makes `None` and `0` skip the check. -/
def expiresSkip (expires : Option Int) (start_time : Int) : Bool :=
  match expires with
  | none => false
  | some t => decide (t ≠ 0 ∧ t < start_time)

/-- One iteration of the child loop after a successful fetch of
`(task_name, request, args, kwargs)` (worker.py 270-337).  `tasks` is the
registry key set (`app.tasks`); `start_time` the `get_time()` reading taken
right after instantiation. -/
def worker_iteration (flags : EmitFlags) (tasks : List String) (task_name : String)
    (task : WorkerTask) (start_time : Int) (outcome : RunOutcome) : IterOut :=
  if task_name ∉ tasks then
    { emissions := if flags.task_unknown then [.task_unknown task_name] else []
      published := []
      ran := false }
  else if expiresSkip task.expires start_time then
    { emissions := if flags.task_expires then [.task_expires task_name] else []
      published := []
      ran := false }
  else
    let startEmits := if flags.task_start then [WEvent.task_start task_name start_time] else []
    match outcome with
    | .ret v =>
      { emissions := startEmits ++ (if flags.task_done then [.task_done task_name] else [])
        published := [put_result_record task.id v Obj.none]
        ran := true }
    | .interrupt e =>
      { emissions := startEmits ++ (if flags.task_interrupt then [.task_interrupt task_name] else [])
        published := [put_result_record task.id Obj.none e]
        ran := true }
    | .throwsExc e =>
      { emissions := startEmits ++ (if flags.task_done then [.task_done task_name] else [])
        published := [put_result_record task.id Obj.none e]
        ran := true }
    | .otherExc e =>
      { emissions := startEmits ++ (if flags.task_exception then [.task_exception task_name] else [])
        published := [put_result_record task.id Obj.none e]
        ran := true }

/-- Exactly one of the two components of a result pair is present
(non-`None`), the invariant the spec states for result wire records. -/
def exactlyOnePresent (v e : Obj) : Prop :=
  (v ≠ Obj.none ∧ e = Obj.none) ∨ (v = Obj.none ∧ e ≠ Obj.none)

instance (v e : Obj) : Decidable (exactlyOnePresent v e) := by
  unfold exactlyOnePresent; exact inferInstance

/-- Excludes the degenerate behaviours Python cannot produce for the
exception arms (a raised exception instance is never `None`) and names the
normal-return value. -/
def outcomeNonNone : RunOutcome → Prop
  | .ret v => v ≠ Obj.none
  | .interrupt e => e ≠ Obj.none
  | .throwsExc e => e ≠ Obj.none
  | .otherExc e => e ≠ Obj.none

instance (o : RunOutcome) : Decidable (outcomeNonNone o) := by
  unfold outcomeNonNone; cases o <;> exact inferInstance

/-! ### `Broccoli.get_result` (app.py 113-126) -/

/-- The observable outcome of `Broccoli.get_result`. -/
inductive GetResultOut
  | timedOut
  | raised (e : Obj)
  | value (v : Obj)
deriving DecidableEq, Repr

/-- `Broccoli.get_result(task_id, timeout, raise_exception)`: `ret` is what
`broker.get_result` returned (`none` = timed out / absent, otherwise the
decoded `(value, exc)` pair). -/
def app_get_result (ret : Option (Obj × Obj)) (raise_exception : Bool) : GetResultOut :=
  match ret with
  | none => .timedOut
  | some (val, exc) =>
    if exc ≠ Obj.none then
      if raise_exception then .raised exc else .value exc
    else .value val

/-! ### Router (`DefaultRouter`, router.py 11-26) and
`Broccoli.send_task` (app.py 96-107) -/

/-- `DefaultRouter.get_queue`: `self.task_routes.get(task_name, self.default_queue)`. -/
def get_queue (task_routes : List (String × String)) (default_queue : String)
    (task_name : String) : String :=
  match task_routes.lookup task_name with
  | some q => q
  | none => default_queue

/-- The queue resolution of `send_task`, line 103:
`queue = queue or self._get_queue(task_name)`.  Python truthiness routes
both a missing queue and an empty queue string through the router. -/
def resolve_queue (queue : Option String) (task_routes : List (String × String))
    (default_queue task_name : String) : String :=
  match queue with
  | none => get_queue task_routes default_queue task_name
  | some q => if q = "" then get_queue task_routes default_queue task_name else q

/-- The queue resolution as the claim words it ("resolves the queue via the
router exactly when the caller supplied none"); kept for comparison with
`resolve_queue`. -/
def resolve_queue_claim (queue : Option String) (task_routes : List (String × String))
    (default_queue task_name : String) : String :=
  match queue with
  | none => get_queue task_routes default_queue task_name
  | some q => q

/-- The hex digit of a nibble, as produced by `uuid4().hex`. -/
def hexDigitCh (n : Nat) : Char :=
  if n < 10 then Char.ofNat (48 + n) else Char.ofNat (87 + n)

/-- `uuid.uuid4().hex`: the 16 bytes of the uuid rendered as lowercase hex
digit pairs. -/
def uuid4hex : List Nat → List Char
  | [] => []
  | b :: bs => hexDigitCh (b / 16) :: hexDigitCh (b % 16) :: uuid4hex bs

/-- Membership of the class `[0-9a-f]`. -/
def isHexLower (c : Char) : Bool :=
  ('0' ≤ c && c ≤ '9') || ('a' ≤ c && c ≤ 'f')

/-- Key lookup in the association-list model of a Python dict. -/
def lookupKey : List (String × Obj) → String → Option Obj
  | [], _ => none
  | (k1, v) :: rest, k => if k1 = k then some v else lookupKey rest k

/-- Remove a key from the association-list model of a Python dict. -/
def delKey : List (String × Obj) → String → List (String × Obj)
  | [], _ => []
  | (k1, v) :: rest, k => if k1 = k then delKey rest k else (k1, v) :: delKey rest k

/-- Python dict assignment `req[k] = v` on an association-list model. -/
def setKey (req : List (String × Obj)) (k : String) (v : Obj) : List (String × Obj) :=
  delKey req k ++ [(k, v)]

/-- The observable effects of `send_task`: the queue pushed to, the wire
record `(task_name, request, args, kwargs)`, and the returned id. -/
structure SendTaskOut where
  pushedQueue : String
  record : String × List (String × Obj) × Obj × Obj
  retId : List Char
deriving Repr

/-- `Broccoli.send_task` (app.py 96-107): allocate `uuid4().hex` (the
uuid's 16 bytes are the `randomBytes` oracle), resolve the queue, merge
`queue` and `id` into the request, push the record, return the id. -/
def send_task (randomBytes : List Nat) (task_name : String) (args kwargs : Obj)
    (queue : Option String) (task_routes : List (String × String))
    (default_queue : String) (request : List (String × Obj)) : SendTaskOut :=
  let task_id := uuid4hex randomBytes
  let q := resolve_queue queue task_routes default_queue task_name
  let req := setKey (setKey request "queue" (Obj.str q)) "id" (Obj.str (String.mk task_id))
  ⟨q, (task_name, req, args, kwargs), task_id⟩

/-! ### The `TaskKiller` plugin (plugins.py 80-120)

`heapq` on `(deadline, task_id)` pairs is modelled as a deadline-sorted
list whose head is the minimum; `running_tasks` as a list used as a set.
Signals actually delivered by `run_in_master` are collected in a list of
`(pid-or-task, signal)` actions — the source body of the drain loop only
calls `logger.debug` and sends nothing, so every branch produces `[]`. -/

/-- The plugin state: the running-task id set and the deadline heap. -/
structure TKState where
  running : List String
  heap : List (Int × String)
deriving DecidableEq, Repr

/-- `heapq.heappush` on the sorted-list model of the heap. -/
def heapInsert (x : Int × String) : List (Int × String) → List (Int × String)
  | [] => [x]
  | y :: ys => if x.1 ≤ y.1 then x :: y :: ys else y :: heapInsert x ys

/-- `set.add`. -/
def setAdd (s : List String) (x : String) : List String :=
  if x ∈ s then s else x :: s

/-- `set.remove` (the caller has already checked membership). -/
def setRemove (s : List String) (x : String) : List String :=
  s.filter (fun y => y ≠ x)

/-- `TaskKiller.on_task_start` (plugins.py 105-115): when the headers carry
`time_limit`, record the id and push `(start_time + limit, task_id)`. -/
def tk_on_task_start (st : TKState) (task_id : String) (time_limit : Option Int)
    (start_time : Int) : TKState :=
  match time_limit with
  | none => st
  | some limit =>
    { running := setAdd st.running task_id
      heap := heapInsert (start_time + limit, task_id) st.heap }

/-- `TaskKiller.run_in_master(curtime)` (plugins.py 91-103): drain every
heap entry with deadline `≤ curtime` (the loop body only logs), then report
the next wakeup as `heap[0][0] - time.time()` (`now2` models the second
clock read).  The third component lists the signals sent: the source sends
none. -/
def tk_run_in_master (st : TKState) (curtime now2 : Int) :
    TKState × Option Int × List (Int × String) :=
  if st.heap.isEmpty then (st, none, [])
  else
    match st.heap.dropWhile (fun e => e.1 ≤ curtime) with
    | [] => ({ st with heap := [] }, none, [])
    | e :: rest => ({ st with heap := e :: rest }, some (e.1 - now2), [])

/-- `TaskKiller.on_task_done` (plugins.py 117-120). -/
def tk_on_task_done (st : TKState) (task_id : String) : TKState :=
  if task_id ∈ st.running then { st with running := setRemove st.running task_id } else st

/-- `TaskKiller.register_master_handlers()`: the class does not override
`Plugin.register_master_handlers` (interfaces.py 162-163), so the
supervisor merges an empty handler table for it — `on_task_start` and
`on_task_done` are never wired to events (and, having no `master_idle`
attribute, `run_in_master` is never called by `Prefork.master_idle`). -/
def tk_register_master_handlers : List (String × String) := []

/-! ### The spec's parse-error categories (spec 4.7 / claim C9)

Boolean predicates for the error categories the spec lists for a cron field
sub-part: empty sub-part, reversed range, out-of-range value, token that is
not an integer or recognized atom, empty step.  They are phrased over the
same atom matchers as the parser so that the characterization theorem can
compare the parser's actual failure set with the spec's list. -/

/-- The sub-part is one of the grammar's atoms `N`, `N-M`, `N-M/S`, `*`,
`*/S` (for `S`, `N`, `M` digit strings). -/
def recognizedAtom (part : List Char) : Bool :=
  decide (part = ['*']) || allDigits part || (matchRange part).isSome ||
    (matchRangeSteps part).isSome || (matchStarSteps part).isSome

/-- The sub-part is a range atom `N-M` or `N-M/S` with `M < N`. -/
def hasReversedRange (part : List Char) : Bool :=
  (match matchRange part with
   | some (a, b) => decide (digitsToInt b < digitsToInt a)
   | none => false) ||
  (match matchRangeSteps part with
   | some (a, b, _) => decide (digitsToInt b < digitsToInt a)
   | none => false)

/-- `i` lies outside the field's `[mn, mx]`. -/
def outValB (mn mx i : Int) : Bool := decide (i < mn) || decide (mx < i)

/-- Some numeric value of the sub-part's atom lies outside `[mn, mx]`
(the bounds of a range atom, or a plain number atom). -/
def hasOutOfRangeValue (mn mx : Int) (part : List Char) : Bool :=
  (match matchRange part with
   | some (a, b) => outValB mn mx (digitsToInt a) || outValB mn mx (digitsToInt b)
   | none => false) ||
  (match matchRangeSteps part with
   | some (a, b, _) => outValB mn mx (digitsToInt a) || outValB mn mx (digitsToInt b)
   | none => false) ||
  (if (matchRange part).isNone && (matchRangeSteps part).isNone &&
      (matchStarSteps part).isNone && !decide (part = ['*']) && allDigits part then
    outValB mn mx (digitsToInt part)
  else false)

/-- The sub-part is a steps atom whose step is the integer 0 (`*/0`,
`N-M/0`): rejected by the slice `[::0]`, not listed by the spec. -/
def hasZeroStep (part : List Char) : Bool :=
  (match matchRangeSteps part with
   | some (_, _, c) => decide (digitsToInt c = 0)
   | none => false) ||
  (match matchStarSteps part with
   | some c => decide (digitsToInt c = 0)
   | none => false)

/-- The sub-part is a steps atom with an empty step (`N-M/`, `*/`), the
spec's "empty step" category. -/
def hasEmptyStep (part : List Char) : Bool :=
  (match splitFirst '-' part with
   | some (a, rest) =>
     (match splitFirst '/' rest with
      | some (b, c) => allDigits a && allDigits b && c.isEmpty
      | none => false)
   | none => false) || decide (part = ['*', '/'])

/-! ## Theorems -/

/-- Claim C1 (code bug).  Expanding the atom `*` does NOT produce the
field's documented range for the two fields whose minimum is 1:
`crontab_parser(1, 31).parse("*")` (day-of-month) evaluates to
`[1, ..., 32]` — `_expand_star` computes `range(min_, max_ + min_ + 1)`,
adding `min_` to the upper bound — even though the very same parser rejects
the explicit token `"32"` as out of range.  The minute example of the claim
does hold: `crontab_parser(0, 59).parse("*/15") = [0, 15, 30, 45]`. -/
theorem c1_star_expansion_bug :
    cp_parse 1 31 "*".toList = .ok (intRangeIncl 1 32) ∧
    (32 : Int) ∈ intRangeIncl 1 32 ∧
    cp_parse 1 31 "32".toList = .error () ∧
    cp_parse 0 59 "*/15".toList = .ok [0, 15, 30, 45] := by
  refine ⟨by decide, by decide, by decide, by decide⟩

/-- Claim C10 (confirmed).  For an iterable cron field value, construction
validates only the first element of the sorted result against the bounds:
whenever the sorted list starts with an in-range element, `_expand_spec`
succeeds and returns the whole sorted list, no matter what the later
elements are. -/
theorem c10_first_element_only (l : List Int) (mn mx a : Int) (rest : List Int)
    (hs : sortInts l = a :: rest) (hb : ¬(a < mn ∨ mx < a)) :
    expand_spec (.iter l) mn mx = .ok (a :: rest) := by
  simp only [expand_spec, checkFirst, hs]
  simp [hb]

/-- Witness for C10 at the claim's example `minute=[0, 99]` with bounds
`0..59`: the crontab field constructs successfully although 99 is out of
range. -/
theorem c10_witness :
    expand_spec (.iter [0, 99]) 0 59 = .ok [0, 99] ∧ (59 : Int) < 99 :=
  ⟨c10_first_element_only [0, 99] 0 59 0 [99] (by decide) (by decide), by decide⟩

/-- Claim C5 (confirmed).  `Broccoli.get_result` times out exactly when the
broker returned absent; otherwise, on a decoded pair `(v, e)`: a present
(non-`None`) `e` is re-raised when `raise_exception` is true and returned
when it is false, and an absent `e` yields the value `v`. -/
theorem c5_get_result : ∀ (ret : Option (Obj × Obj)) (rexc : Bool),
    ((app_get_result ret rexc = .timedOut) ↔ ret = none) ∧
    (∀ v e, ret = some (v, e) → e ≠ Obj.none →
      app_get_result ret rexc = (if rexc then .raised e else .value e)) ∧
    (∀ v, ret = some (v, Obj.none) → app_get_result ret rexc = .value v) := by
  intro ret rexc
  refine ⟨?_, ?_, ?_⟩
  · cases ret with
    | none => simp [app_get_result]
    | some p =>
      obtain ⟨v, e⟩ := p
      simp only [app_get_result]
      constructor
      · intro h
        split at h
        · split at h <;> exact absurd h (by simp)
        · exact absurd h (by simp)
      · intro h
        exact absurd h (by simp)
  · rintro v e rfl he
    simp [app_get_result, he]
  · rintro v rfl
    simp [app_get_result]

/-- Witness for C5: an error-carrying result with `raise_exception=true`
re-raises the stored exception object. -/
theorem c5_witness :
    app_get_result (some (Obj.int 3, Obj.exc "ValueError" "nope")) true =
      .raised (Obj.exc "ValueError" "nope") := by
  have h := (c5_get_result (some (Obj.int 3, Obj.exc "ValueError" "nope")) true).2.1
    (Obj.int 3) (Obj.exc "ValueError" "nope") rfl (by decide)
  simpa using h

/-- Claim C4 counterexample.  A fetched task whose request carries
`expires = 0` with fetch-time reading `1 > 0` is nevertheless executed:
the guard `task.expires and task.expires < start_time` treats the falsy
value 0 as "no expiry", so the body runs, a result is published, and
`task_start`/`task_done` are emitted instead of `task_expires`. -/
theorem c4_counterexample :
    worker_iteration allFlags ["t.add"] "t.add" ⟨"id0", some 0⟩ 1 (.ret (Obj.int 5)) =
      { emissions := [.task_start "t.add" 1, .task_done "t.add"]
        published := [("id0", Obj.int 5, Obj.none)]
        ran := true } := by decide

/-- Claim C4 as amended: for a fetched, registered task whose request
carries a NON-ZERO `expires = t`, if the fetch-time reading `tp` satisfies
`tp > t` then the body is not invoked, nothing is published, and (the
worker subscribing to it) `task_expires` is the only emission. -/
theorem c4_amended : ∀ (flags : EmitFlags) (tasks : List String) (task_name : String)
    (task : WorkerTask) (t tp : Int) (outcome : RunOutcome),
    flags.task_expires = true → task_name ∈ tasks →
    task.expires = some t → t ≠ 0 → t < tp →
    worker_iteration flags tasks task_name task tp outcome =
      { emissions := [.task_expires task_name], published := [], ran := false } := by
  intro flags tasks task_name task t tp outcome hflag hmem hexp ht0 hlt
  have hskip : expiresSkip task.expires tp = true := by
    rw [hexp]; simp [expiresSkip, ht0, hlt]
  simp [worker_iteration, hmem, hskip, hflag]

/-- Witness for the amended C4 at `expires = 5`, fetch time 10. -/
theorem c4_witness :
    worker_iteration allFlags ["t"] "t" ⟨"i", some 5⟩ 10 (.ret Obj.none) =
      { emissions := [.task_expires "t"], published := [], ran := false } :=
  c4_amended allFlags ["t"] "t" ⟨"i", some 5⟩ 5 10 (.ret Obj.none) rfl
    (by decide) rfl (by decide) (by decide)

/-- Claim C6 counterexample.  A task body that returns Python `None` (a
perfectly normal outcome) is published as the pair `(None, None)`: neither
component is present, refuting "exactly one of the two components is
present over all task outcomes". -/
theorem c6_counterexample :
    (worker_iteration allFlags ["t"] "t" ⟨"id1", none⟩ 5 (.ret Obj.none)).published =
      [("id1", Obj.none, Obj.none)] ∧
    ¬ exactlyOnePresent Obj.none Obj.none := by decide

/-- Claim C6 as amended: every record published by the worker loop's
dispatch arms has exactly one present component, PROVIDED the task outcome
is non-degenerate — the raised exception object is not `None` (always true
in Python) and a normal return value is not itself `None`. -/
theorem c6_amended : ∀ (flags : EmitFlags) (tasks : List String) (task_name : String)
    (task : WorkerTask) (start_time : Int) (outcome : RunOutcome),
    outcomeNonNone outcome →
    ∀ r ∈ (worker_iteration flags tasks task_name task start_time outcome).published,
      exactlyOnePresent r.2.1 r.2.2 := by
  intro flags tasks task_name task start_time outcome hnn r hr
  simp only [worker_iteration] at hr
  split at hr
  · simp at hr
  · split at hr
    · simp at hr
    · cases outcome with
      | ret v =>
        simp only [put_result_record, List.mem_singleton] at hr
        subst hr
        exact Or.inl ⟨hnn, rfl⟩
      | interrupt e =>
        simp only [put_result_record, List.mem_singleton] at hr
        subst hr
        exact Or.inr ⟨rfl, hnn⟩
      | throwsExc e =>
        simp only [put_result_record, List.mem_singleton] at hr
        subst hr
        exact Or.inr ⟨rfl, hnn⟩
      | otherExc e =>
        simp only [put_result_record, List.mem_singleton] at hr
        subst hr
        exact Or.inr ⟨rfl, hnn⟩

/-- Witness for the amended C6: a non-`None` normal return publishes a
record whose value component alone is present. -/
theorem c6_witness : exactlyOnePresent (Obj.int 7) Obj.none :=
  c6_amended allFlags ["t"] "t" ⟨"i", none⟩ 0 (.ret (Obj.int 7)) (by decide)
    ("i", Obj.int 7, Obj.none) (by decide)

/-- Claim C8 (code bug).  The `TaskKiller` plugin never sends USR1: its
handler table is the empty one inherited from `Plugin` (so `on_task_start`
and `on_task_done` are never invoked by the supervisor), and even when its
drain loop `run_in_master` is driven directly — here a task with
`time_limit = 1` started at time 0, drained at time 2 — the expired entry
is popped while the id is still in the running set, yet the signal list of
every branch is empty (the loop body only logs a debug line). -/
theorem c8_taskkiller_inert :
    tk_register_master_handlers = [] ∧
    tk_on_task_start ⟨[], []⟩ "t1" (some 1) 0 = ⟨["t1"], [(1, "t1")]⟩ ∧
    "t1" ∈ (tk_on_task_start ⟨[], []⟩ "t1" (some 1) 0).running ∧
    tk_run_in_master ⟨["t1"], [(1, "t1")]⟩ 2 2 = (⟨["t1"], []⟩, none, []) := by
  refine ⟨rfl, by decide, by decide, by decide⟩

/-- Claim C3 counterexample.  With `gzip_min_length = 0` — a configuration
the claim explicitly admits — the encoder never compresses although
`len(serialize(x)) ≥ 0` always holds, so "compresses iff
`len(serialize(x)) ≥ gzip_min_length`" is false: `_get_encoder` only
installs the compressing codec when `gzip_min_length > 0`. -/
theorem c3_counterexample :
    ¬ ((broker_dumps serC compC 0 [] = compC (serC [])) ↔
        0 ≤ (serC []).length) := by decide

/-- Claim C3 as amended: for any serializer round-tripping `x`, any
compressor inverted by its decompressor, serialized payloads never opening
with `0x1f` and compressed payloads always opening with `0x1f` (the pickle
/ gzip framing facts the spec documents): decode ∘ encode is the identity
for every `gzip_min_length ≥ 0`; the encoder compresses iff
`gzip_min_length > 0` and the serialized length reaches it; with
`gzip_min_length = 0` the payload is the bare serialization. -/
theorem c3_amended {α : Type} (ser : α → List Nat) (deser : List Nat → α)
    (comp decomp : List Nat → List Nat) (g : Nat) (x : α)
    (hser : deser (ser x) = x)
    (hcomp : decomp (comp (ser x)) = ser x)
    (hmagic : (ser x).head? ≠ some 0x1f)
    (hcmagic : (comp (ser x)).head? = some 0x1f) :
    broker_loads deser decomp g (broker_dumps ser comp g x) = x ∧
    (broker_dumps ser comp g x = comp (ser x) ↔ (0 < g ∧ g ≤ (ser x).length)) ∧
    (g = 0 → broker_dumps ser comp g x = ser x) := by
  have hne : ser x ≠ comp (ser x) := by
    intro h
    rw [← h] at hcmagic
    exact hmagic hcmagic
  rcases Nat.eq_zero_or_pos g with hg | hg
  · subst hg
    refine ⟨?_, ?_, fun _ => by simp [broker_dumps]⟩
    · simp [broker_dumps, broker_loads, hser]
    · simp only [broker_dumps, lt_irrefl, if_false]
      constructor
      · intro h; exact absurd h hne
      · rintro ⟨h, -⟩; exact h.elim
  · by_cases hlen : g ≤ (ser x).length
    · refine ⟨?_, ?_, ?_⟩
      · simp [broker_dumps, broker_loads, hg, hlen, hcmagic, hcomp, hser]
      · simp [broker_dumps, hg, hlen]
      · intro h; omega
    · refine ⟨?_, ?_, ?_⟩
      · simp [broker_dumps, broker_loads, hg, hlen, hser, hmagic]
      · simp only [broker_dumps, hg, if_true, hlen, if_false]
        constructor
        · intro h; exact absurd h hne
        · rintro ⟨-, h⟩; exact h.elim
      · intro h; omega

/-- Witness for the amended C3 with the concrete codec, threshold 2 and the
payload `[7]` (serialized length 2, so the gzip branch fires). -/
theorem c3_witness :
    broker_loads deserC decompC 2 (broker_dumps serC compC 2 [7]) = [7] ∧
    (broker_dumps serC compC 2 [7] = compC (serC [7]) ↔
      (0 < 2 ∧ 2 ≤ (serC [7]).length)) ∧
    ((2 : Nat) = 0 → broker_dumps serC compC 2 [7] = serC [7]) :=
  c3_amended serC deserC compC decompC 2 [7] rfl rfl (by decide) rfl

/-! ### Helper lemmas for `send_task` (claim C7) -/

theorem uuid4hex_length : ∀ bs : List Nat, (uuid4hex bs).length = 2 * bs.length := by
  intro bs
  induction bs with
  | nil => rfl
  | cons b bs ih => simp only [uuid4hex, List.length_cons, ih]; omega

theorem hexDigitCh_hex (n : Nat) (h : n < 16) : isHexLower (hexDigitCh n) = true := by
  interval_cases n <;> decide

theorem uuid4hex_hex : ∀ bs : List Nat, (∀ b ∈ bs, b < 256) →
    ∀ ch ∈ uuid4hex bs, isHexLower ch = true := by
  intro bs
  induction bs with
  | nil => intro _ ch hch; simp [uuid4hex] at hch
  | cons b bs ih =>
    intro hb ch hch
    have hblt : b < 256 := hb b (by simp)
    simp only [uuid4hex, List.mem_cons] at hch
    rcases hch with h | h | h
    · subst h; exact hexDigitCh_hex _ (by omega)
    · subst h; exact hexDigitCh_hex _ (by omega)
    · exact ih (fun x hx => hb x (by simp [hx])) ch h

theorem lookupKey_setKey_self (r : List (String × Obj)) (k : String) (v : Obj) :
    lookupKey (setKey r k v) k = some v := by
  induction r with
  | nil => simp [setKey, delKey, lookupKey]
  | cons p r ih =>
    obtain ⟨pk, pv⟩ := p
    by_cases h : pk = k
    · simpa [setKey, delKey, h] using ih
    · simpa [setKey, delKey, lookupKey, h] using ih

theorem lookupKey_setKey_other (r : List (String × Obj)) (k : String) (v : Obj)
    (k' : String) (h : k' ≠ k) :
    lookupKey (setKey r k v) k' = lookupKey r k' := by
  have h' : k ≠ k' := fun hc => h hc.symm
  induction r with
  | nil => simp [setKey, delKey, lookupKey, h']
  | cons p r ih =>
    obtain ⟨pk, pv⟩ := p
    by_cases hk : pk = k
    · subst hk
      simpa [setKey, delKey, lookupKey, h'] using ih
    · by_cases hk' : pk = k'
      · simp [setKey, delKey, lookupKey, hk, hk', h]
      · simpa [setKey, delKey, lookupKey, hk, hk'] using ih

/-- Claim C7 counterexample.  The claim says the queue is resolved via the
router "exactly when the caller supplied none", but `send_task` computes
`queue or self._get_queue(task_name)`: a caller-supplied EMPTY queue name
is falsy, so the push goes to the router's queue, not the supplied one. -/
theorem c7_counterexample :
    (send_task [] "t" Obj.none Obj.none (some "") [] "default" []).pushedQueue = "default" ∧
    resolve_queue_claim (some "") [] "default" "t" = "" ∧
    ("default" : String) ≠ "" := by
  refine ⟨rfl, rfl, by decide⟩

/-- Claim C7 as amended: a completed `send_task` call returns an id
matching `^[0-9a-f]{32}$` (the hex of the uuid's 16 bytes), pushes the wire
record `(task_name, request, args, kwargs)` whose request maps `id` to that
id and `queue` to the pushed queue while every other key of the caller's
request is preserved — and the queue comes from the router exactly when the
caller supplied none OR an empty (falsy) queue name, otherwise it is the
caller's. -/
theorem c7_amended : ∀ (randomBytes : List Nat) (task_name : String) (args kwargs : Obj)
    (queue : Option String) (task_routes : List (String × String))
    (default_queue : String) (request : List (String × Obj)),
    randomBytes.length = 16 → (∀ b ∈ randomBytes, b < 256) →
    ∀ res, res = send_task randomBytes task_name args kwargs queue task_routes
        default_queue request →
      (res.retId.length = 32 ∧ ∀ ch ∈ res.retId, isHexLower ch = true) ∧
      (res.record.1 = task_name ∧ res.record.2.2.1 = args ∧ res.record.2.2.2 = kwargs) ∧
      lookupKey res.record.2.1 "id" = some (Obj.str (String.mk res.retId)) ∧
      lookupKey res.record.2.1 "queue" = some (Obj.str res.pushedQueue) ∧
      (∀ k, k ≠ "id" → k ≠ "queue" → lookupKey res.record.2.1 k = lookupKey request k) ∧
      ((queue = none ∨ queue = some "") →
        res.pushedQueue = get_queue task_routes default_queue task_name) ∧
      (∀ q, queue = some q → q ≠ "" → res.pushedQueue = q) := by
  intro randomBytes task_name args kwargs queue task_routes default_queue request
    hlen hbytes res hres
  subst hres
  simp only [send_task]
  refine ⟨⟨?_, ?_⟩, by simp, ?_, ?_, ?_, ?_, ?_⟩
  · rw [uuid4hex_length, hlen]
  · exact uuid4hex_hex randomBytes hbytes
  · exact lookupKey_setKey_self _ _ _
  · rw [lookupKey_setKey_other _ _ _ _ (by decide)]
    exact lookupKey_setKey_self _ _ _
  · intro k hid hq
    rw [lookupKey_setKey_other _ _ _ _ hid, lookupKey_setKey_other _ _ _ _ hq]
  · rintro (rfl | rfl)
    · rfl
    · rfl
  · rintro q rfl hq
    simp [resolve_queue, hq]

/-- Witness for the amended C7 with sixteen concrete uuid bytes: the
returned id has 32 characters. -/
theorem c7_witness :
    (send_task [0, 17, 34, 51, 68, 85, 102, 119, 136, 153, 170, 187, 204, 221, 238, 255]
      "t" Obj.none Obj.none none [] "default" []).retId.length = 32 :=
  ((c7_amended [0, 17, 34, 51, 68, 85, 102, 119, 136, 153, 170, 187, 204, 221, 238, 255]
    "t" Obj.none Obj.none none [] "default" [] (by decide) (by decide)) _ rfl).1.1

/-! ### Helper lemmas for the parser characterization (claim C9) -/

theorem digitsToInt_nonneg (s : List Char) : 0 ≤ digitsToInt s := by
  suffices h : ∀ (l : List Char) (a : Int), 0 ≤ a →
      0 ≤ l.foldl (fun a c => a * 10 + ((c.toNat - 48 : Nat) : Int)) a by
    exact h s 0 le_rfl
  intro l
  induction l with
  | nil => intro a ha; simpa using ha
  | cons c cs ih =>
    intro a ha
    simp only [List.foldl_cons]
    refine ih _ (add_nonneg (mul_nonneg ha (by norm_num)) (Int.natCast_nonneg _))

theorem splitFirst_some (sep : Char) : ∀ (l a b : List Char),
    splitFirst sep l = some (a, b) → l = a ++ sep :: b ∧ sep ∉ a := by
  intro l
  induction l with
  | nil => intro a b h; simp [splitFirst] at h
  | cons c cs ih =>
    intro a b h
    by_cases hc : c = sep
    · subst hc
      simp only [splitFirst, if_pos rfl] at h
      obtain ⟨rfl, rfl⟩ := Prod.mk.injEq .. ▸ (Option.some.inj h)
      simp
    · simp only [splitFirst, if_neg hc] at h
      cases hsp : splitFirst sep cs with
      | none => rw [hsp] at h; exact absurd h (by simp)
      | some p =>
        obtain ⟨a', b'⟩ := p
        rw [hsp] at h
        simp only [Option.some.injEq, Prod.mk.injEq] at h
        obtain ⟨rfl, rfl⟩ := h
        obtain ⟨hl, hni⟩ := ih a' b' hsp
        refine ⟨by simp [hl], ?_⟩
        intro hmem
        rcases List.mem_cons.mp hmem with h | h
        · exact hc h.symm
        · exact hni h

theorem allDigits_mem (l : List Char) (h : allDigits l = true) :
    ∀ c ∈ l, c.isDigit = true := by
  unfold allDigits at h
  rw [Bool.and_eq_true, List.all_eq_true] at h
  exact h.2

theorem allDigits_false_of_mem (l : List Char) (c : Char) (hc : c ∈ l)
    (hd : c.isDigit = false) : allDigits l = false := by
  by_contra h
  rw [Bool.not_eq_false] at h
  have := allDigits_mem l h c hc
  rw [hd] at this
  exact Bool.false_ne_true this

theorem allDigits_ne_nil (l : List Char) (h : allDigits l = true) : l ≠ [] := by
  intro hnil
  subst hnil
  simp [allDigits] at h

/-- If the part splits at a `-` after a digit prefix, it is not a star
atom, not a star-steps atom, and not a number atom. -/
theorem after_dash_not_star (part a rest : List Char)
    (h1 : splitFirst '-' part = some (a, rest)) (ha : allDigits a = true) :
    matchStarSteps part = none ∧ allDigits part = false ∧ part ≠ ['*'] := by
  obtain ⟨hpart, -⟩ := splitFirst_some '-' part a rest h1
  have hdash : '-' ∈ part := by simp [hpart]
  have hpfalse : allDigits part = false :=
    allDigits_false_of_mem part '-' hdash (by decide)
  have hne : part ≠ ['*'] := by
    intro h
    rw [h] at hdash
    simp at hdash
  refine ⟨?_, hpfalse, hne⟩
  obtain ⟨d, ds, rfl⟩ : ∃ d ds, a = d :: ds := by
    cases a with
    | nil => exact absurd rfl (allDigits_ne_nil [] ha)
    | cons d ds => exact ⟨d, ds, rfl⟩
  have hd : d.isDigit = true := allDigits_mem _ ha d (by simp)
  have hds : d ≠ '*' := by
    intro h
    rw [h] at hd
    exact absurd hd (by decide)
  cases ds with
  | nil =>
    rw [hpart]
    simp [matchStarSteps]
  | cons d2 ds' =>
    rw [hpart]
    simp [matchStarSteps, hds]

theorem matchStarSteps_some (part c : List Char) (h : matchStarSteps part = some c) :
    part = '*' :: '/' :: c ∧ allDigits c = true := by
  cases part with
  | nil => exact absurd h (by simp [matchStarSteps])
  | cons c1 t =>
    cases t with
    | nil => exact absurd h (by simp [matchStarSteps])
    | cons c2 rest =>
      simp only [matchStarSteps] at h
      split at h
      · rename_i hcond
        simp only [Bool.and_eq_true, decide_eq_true_iff] at hcond
        obtain ⟨⟨h1, h2⟩, h3⟩ := hcond
        obtain rfl := Option.some.inj h
        subst h1; subst h2
        exact ⟨rfl, h3⟩
      · exact absurd h (by simp)

theorem matchRange_some (part a b : List Char) (h : matchRange part = some (a, b)) :
    splitFirst '-' part = some (a, b) ∧ allDigits a = true ∧ allDigits b = true := by
  unfold matchRange at h
  split at h
  · exact absurd h (by simp)
  · rename_i heq
    split at h
    · rename_i hcond
      simp only [Bool.and_eq_true] at hcond
      have hinj := Option.some.inj h
      simp only [Prod.mk.injEq] at hinj
      obtain ⟨rfl, rfl⟩ := hinj
      exact ⟨heq, hcond.1, hcond.2⟩
    · exact absurd h (by simp)

theorem matchRangeSteps_some (part a b c : List Char)
    (h : matchRangeSteps part = some (a, b, c)) :
    splitFirst '-' part = some (a, b ++ '/' :: c) ∧
      allDigits a = true ∧ allDigits b = true ∧ allDigits c = true := by
  unfold matchRangeSteps at h
  split at h
  · exact absurd h (by simp)
  · rename_i heq1
    split at h
    · exact absurd h (by simp)
    · rename_i heq2
      split at h
      · rename_i hcond
        simp only [Bool.and_eq_true] at hcond
        obtain ⟨⟨ha, hb⟩, hc⟩ := hcond
        have hinj := Option.some.inj h
        simp only [Prod.mk.injEq] at hinj
        obtain ⟨rfl, rfl, rfl⟩ := hinj
        obtain ⟨hrest, -⟩ := splitFirst_some '/' _ _ _ heq2
        rw [hrest] at heq1
        exact ⟨heq1, ha, hb, hc⟩
      · exact absurd h (by simp)

/-- A range-steps match excludes every other atom form. -/
theorem matchRangeSteps_excl (part a b c : List Char)
    (h : matchRangeSteps part = some (a, b, c)) :
    matchRange part = none ∧ matchStarSteps part = none ∧
      allDigits part = false ∧ part ≠ ['*'] := by
  obtain ⟨h1, ha, hb, hc⟩ := matchRangeSteps_some part a b c h
  obtain ⟨hns, hpf, hne⟩ := after_dash_not_star part a (b ++ '/' :: c) h1 ha
  refine ⟨?_, hns, hpf, hne⟩
  have hslash : '/' ∈ b ++ '/' :: c := by simp
  have : allDigits (b ++ '/' :: c) = false :=
    allDigits_false_of_mem _ '/' hslash (by decide)
  unfold matchRange
  rw [h1]
  simp [this]

/-- A plain-range match excludes the star, star-steps and number forms. -/
theorem matchRange_excl (part a b : List Char) (h : matchRange part = some (a, b)) :
    matchStarSteps part = none ∧ allDigits part = false ∧ part ≠ ['*'] := by
  obtain ⟨h1, ha, hb⟩ := matchRange_some part a b h
  exact after_dash_not_star part a b h1 ha

/-- A star-steps match excludes the star and number forms. -/
theorem matchStarSteps_excl (part c : List Char) (h : matchStarSteps part = some c) :
    allDigits part = false ∧ part ≠ ['*'] := by
  obtain ⟨hpart, -⟩ := matchStarSteps_some part c h
  subst hpart
  exact ⟨allDigits_false_of_mem _ '*' (by simp) (by decide), by simp⟩

theorem expand_number_error (mn mx : Int) (s : List Char) :
    expand_number mn mx s = .error () ↔ outValB mn mx (digitsToInt s) = true := by
  unfold expand_number outValB
  split
  · rename_i h
    simp [h]
  · split
    · rename_i h
      simp [h]
    · rename_i h1 h2
      simp only [lt_iff_not_ge] at h1 h2
      constructor
      · intro h; exact absurd h (by simp)
      · intro h
        rw [Bool.or_eq_true, decide_eq_true_iff, decide_eq_true_iff] at h
        rcases h with h | h
        · omega
        · omega

theorem expand_range_error (mn mx : Int) (a b : List Char) :
    expand_range mn mx a b = .error () ↔
      (outValB mn mx (digitsToInt a) || outValB mn mx (digitsToInt b) ||
        decide (digitsToInt b < digitsToInt a)) = true := by
  unfold expand_range
  cases hna : expand_number mn mx a with
  | error e =>
    obtain rfl : e = () := rfl
    have := (expand_number_error mn mx a).mp hna
    simp [this]
  | ok fr =>
    have hnota : outValB mn mx (digitsToInt a) = false := by
      by_contra hf
      rw [Bool.not_eq_false] at hf
      rw [← expand_number_error mn mx a] at hf
      rw [hf] at hna
      exact Except.noConfusion hna
    have hfr : fr = digitsToInt a := by
      unfold expand_number at hna
      split at hna
      · exact absurd hna (by simp)
      · split at hna
        · exact absurd hna (by simp)
        · exact (Option.some.inj (by simpa using hna.symm)) ▸ rfl
    cases hnb : expand_number mn mx b with
    | error e =>
      obtain rfl : e = () := rfl
      have := (expand_number_error mn mx b).mp hnb
      simp [this, hnota]
    | ok toi =>
      have hnotb : outValB mn mx (digitsToInt b) = false := by
        by_contra hf
        rw [Bool.not_eq_false] at hf
        rw [← expand_number_error mn mx b] at hf
        rw [hf] at hnb
        exact Except.noConfusion hnb
      have hto : toi = digitsToInt b := by
        unfold expand_number at hnb
        split at hnb
        · exact absurd hnb (by simp)
        · split at hnb
          · exact absurd hnb (by simp)
          · exact (Option.some.inj (by simpa using hnb.symm)) ▸ rfl
      subst hfr hto
      simp only [hnota, hnotb, Bool.false_or]
      split
      · rename_i h
        simp [h]
      · rename_i h
        constructor
        · intro hh; exact absurd hh (by simp)
        · intro hh
          rw [decide_eq_true_iff] at hh
          exact absurd hh h

theorem range_steps_error (mn mx : Int) (a b c : List Char) (hc : allDigits c = true) :
    range_steps mn mx a b c = .error () ↔
      ((outValB mn mx (digitsToInt a) || outValB mn mx (digitsToInt b) ||
        decide (digitsToInt b < digitsToInt a)) || decide (digitsToInt c = 0)) = true := by
  have hcne : c.isEmpty = false := by
    cases c with
    | nil => exact absurd rfl (allDigits_ne_nil [] hc)
    | cons x xs => rfl
  unfold range_steps
  simp only [hcne, Bool.false_eq_true, if_false]
  cases her : expand_range mn mx a b with
  | error e =>
    obtain rfl : e = () := rfl
    have h1 := (expand_range_error mn mx a b).mp her
    simp [h1]
  | ok r =>
    have h1 : (outValB mn mx (digitsToInt a) || outValB mn mx (digitsToInt b) ||
        decide (digitsToInt b < digitsToInt a)) = false := by
      by_contra hf
      rw [Bool.not_eq_false] at hf
      rw [← expand_range_error mn mx a b] at hf
      rw [hf] at her
      exact Except.noConfusion her
    simp only [h1, Bool.false_or]
    have hnn := digitsToInt_nonneg c
    split
    · rename_i hz
      have hz0 : digitsToInt c = 0 := by omega
      simp [hz0]
    · rename_i hz
      have hz0 : ¬ digitsToInt c = 0 := by omega
      simp [hz0]

theorem star_steps_error (mn mx : Int) (c : List Char) (hc : allDigits c = true) :
    star_steps mn mx c = .error () ↔ decide (digitsToInt c = 0) = true := by
  have hcne : c.isEmpty = false := by
    cases c with
    | nil => exact absurd rfl (allDigits_ne_nil [] hc)
    | cons x xs => rfl
  unfold star_steps
  simp only [hcne, Bool.false_eq_true, if_false]
  have hnn := digitsToInt_nonneg c
  split
  · rename_i hz
    have hz0 : digitsToInt c = 0 := by omega
    simp [hz0]
  · rename_i hz
    have hz0 : ¬ digitsToInt c = 0 := by omega
    simp [hz0]

/-- The failure set of `_parse_part` is precisely: unrecognized token, or a
reversed range, or an out-of-range value, or a zero step. -/
theorem parse_part_error_iff (mn mx : Int) (part : List Char) :
    parse_part mn mx part = .error () ↔
      (recognizedAtom part = false ∨ hasReversedRange part = true ∨
       hasOutOfRangeValue mn mx part = true ∨ hasZeroStep part = true) := by
  unfold parse_part
  cases hrs : matchRangeSteps part with
  | some t =>
    obtain ⟨a, b, c⟩ := t
    obtain ⟨h1, ha, hb, hc⟩ := matchRangeSteps_some part a b c hrs
    obtain ⟨hmr, hms, hpd, hpstar⟩ := matchRangeSteps_excl part a b c hrs
    rw [range_steps_error mn mx a b c hc]
    unfold recognizedAtom hasReversedRange hasOutOfRangeValue hasZeroStep
    rw [hrs, hmr, hms]
    simp only [hpd, hpstar, Option.isSome_some, Option.isSome_none, Bool.or_true,
      Bool.true_or, Bool.false_or, Bool.or_false, decide_False, Bool.or_eq_true,
      decide_eq_true_iff, Bool.false_eq_true, false_or, or_false]
    tauto
  | none =>
    cases hmr : matchRange part with
    | some t =>
      obtain ⟨a, b⟩ := t
      obtain ⟨h1, ha, hb⟩ := matchRange_some part a b hmr
      obtain ⟨hms, hpd, hpstar⟩ := matchRange_excl part a b hmr
      rw [expand_range_error mn mx a b]
      unfold recognizedAtom hasReversedRange hasOutOfRangeValue hasZeroStep
      rw [hrs, hmr, hms]
      simp only [hpd, hpstar, Option.isSome_some, Option.isSome_none, Bool.or_true,
        Bool.true_or, Bool.false_or, Bool.or_false, decide_False, Bool.or_eq_true,
        decide_eq_true_iff, Bool.false_eq_true, false_or, or_false]
      tauto
    | none =>
      cases hms : matchStarSteps part with
      | some c =>
        obtain ⟨hpart, hc⟩ := matchStarSteps_some part c hms
        obtain ⟨hpd, hpstar⟩ := matchStarSteps_excl part c hms
        rw [star_steps_error mn mx c hc]
        unfold recognizedAtom hasReversedRange hasOutOfRangeValue hasZeroStep
        rw [hrs, hmr, hms]
        simp only [hpd, hpstar, Option.isSome_some, Option.isSome_none, Bool.or_true,
          Bool.true_or, Bool.false_or, Bool.or_false, decide_False, Bool.or_eq_true,
          decide_eq_true_iff, Bool.false_eq_true, false_or, or_false, Bool.and_false,
          Bool.false_and, if_false]
        tauto
      | none =>
        by_cases hpstar : part = ['*']
        · subst hpstar
          unfold recognizedAtom hasReversedRange hasOutOfRangeValue hasZeroStep
          rw [hrs, hmr, hms]
          simp
        · by_cases hpd : allDigits part = true
          · unfold recognizedAtom hasReversedRange hasOutOfRangeValue hasZeroStep
            rw [hrs, hmr, hms]
            simp only [hpd, hpstar, if_neg hpstar, Option.isSome_none, Option.isNone_none,
              Bool.or_true, Bool.true_or, Bool.false_or, Bool.or_false, decide_False,
              Bool.or_eq_true, decide_eq_true_iff, Bool.false_eq_true, false_or, or_false,
              Bool.and_true, Bool.true_and, Bool.not_false, if_true]
            cases hen : expand_number mn mx part with
            | error e =>
              obtain rfl : e = () := rfl
              have h1 := (expand_number_error mn mx part).mp hen
              simp [h1]
            | ok n =>
              have h1 : outValB mn mx (digitsToInt part) = false := by
                by_contra hf
                rw [Bool.not_eq_false] at hf
                rw [← expand_number_error mn mx part] at hf
                rw [hf] at hen
                exact Except.noConfusion hen
              simp [h1]
          · have hpd' : allDigits part = false := by
              cases hx : allDigits part with
              | false => rfl
              | true => exact absurd hx hpd
            unfold recognizedAtom hasReversedRange hasOutOfRangeValue hasZeroStep
            rw [hrs, hmr, hms]
            simp [hpd', hpstar]

/-- The failure set of `crontab_parser.parse`: some comma-separated part is
empty or fails `_parse_part`. -/
theorem parse_go_error_iff (mn mx : Int) : ∀ (parts : List (List Char)) (acc : List Int),
    parse_go mn mx parts acc = .error () ↔
      ∃ p ∈ parts, p = [] ∨ parse_part mn mx p = .error () := by
  intro parts
  induction parts with
  | nil => intro acc; simp [parse_go]
  | cons p ps ih =>
    intro acc
    by_cases hp : p.isEmpty
    · have hpnil : p = [] := by
        cases p with
        | nil => rfl
        | cons x xs => exact absurd hp (by simp)
      simp [parse_go, hp, hpnil]
    · simp only [parse_go, hp, Bool.false_eq_true, if_false]
      have hpne : p ≠ [] := by
        intro h
        subst h
        exact hp rfl
      cases hpp : parse_part mn mx p with
      | error e =>
        obtain rfl : e = () := rfl
        simp [hpp]
      | ok l =>
        rw [ih (acc ++ l)]
        constructor
        · rintro ⟨q, hq, hcase⟩
          exact ⟨q, by simp [hq], hcase⟩
        · rintro ⟨q, hq, hcase⟩
          rcases List.mem_cons.mp hq with rfl | hq'
          · rcases hcase with h | h
            · exact absurd h hpne
            · rw [h] at hpp
              exact absurd hpp (by simp)
          · exact ⟨q, hq', hcase⟩

/-- Claim C9 counterexample.  `crontab_parser(0, 59).parse("*/0")` fails —
the slice `[::0]` raises — although `*/0` is none of the claim's five error
categories: it is not an empty sub-part, it IS a recognized atom (`*/S`
with the integer step 0), it has no reversed range, no out-of-range value,
and its step is not empty. -/
theorem c9_counterexample :
    cp_parse 0 59 "*/0".toList = .error () ∧
    ¬ ("*/0".toList = [] ∨ recognizedAtom "*/0".toList = false ∨
       hasReversedRange "*/0".toList = true ∨
       hasOutOfRangeValue 0 59 "*/0".toList = true ∨
       hasEmptyStep "*/0".toList = true) := by decide

/-- Claim C9 as amended: parsing a cron field fails exactly when some
comma-separated sub-part is empty, or is a token that is not an integer or
recognized atom (this category subsumes the spec's "empty step": an empty
step never matches the steps atoms), or is a reversed range, or carries an
out-of-range value, or — the case the claim misses — is a steps atom with
the integer step 0. -/
theorem c9_amended (mn mx : Int) (spec : List Char) :
    cp_parse mn mx spec = .error () ↔
      ∃ part ∈ splitAll ',' spec,
        part = [] ∨ recognizedAtom part = false ∨ hasReversedRange part = true ∨
        hasOutOfRangeValue mn mx part = true ∨ hasZeroStep part = true := by
  unfold cp_parse
  rw [parse_go_error_iff mn mx (splitAll ',' spec) []]
  constructor
  · rintro ⟨p, hp, hcase⟩
    refine ⟨p, hp, ?_⟩
    rcases hcase with h | h
    · exact Or.inl h
    · rcases (parse_part_error_iff mn mx p).mp h with h' | h' | h' | h' <;> tauto
  · rintro ⟨p, hp, hcase⟩
    refine ⟨p, hp, ?_⟩
    rcases hcase with h | h | h | h | h
    · exact Or.inl h
    all_goals exact Or.inr ((parse_part_error_iff mn mx p).mpr (by tauto))

/-! ### Helper lemmas for the schedule generator (claim C2) -/

theorem dtle_of_y {a b : DT} (h : a.y < b.y) : DT.le a b := Or.inl h

theorem dtle_of_m {a b : DT} (hy : a.y = b.y) (h : a.m < b.m) : DT.le a b :=
  Or.inr ⟨hy, Or.inl h⟩

theorem dtle_of_d {a b : DT} (hy : a.y = b.y) (hm : a.m = b.m) (h : a.d < b.d) : DT.le a b :=
  Or.inr ⟨hy, Or.inr ⟨hm, Or.inl h⟩⟩

theorem dtle_of_h {a b : DT} (hy : a.y = b.y) (hm : a.m = b.m) (hd : a.d = b.d)
    (h : a.h < b.h) : DT.le a b :=
  Or.inr ⟨hy, Or.inr ⟨hm, Or.inr ⟨hd, Or.inl h⟩⟩⟩

theorem dtle_of_mi {a b : DT} (hy : a.y = b.y) (hm : a.m = b.m) (hd : a.d = b.d)
    (hh : a.h = b.h) (h : a.mi ≤ b.mi) : DT.le a b :=
  Or.inr ⟨hy, Or.inr ⟨hm, Or.inr ⟨hd, Or.inr ⟨hh, h⟩⟩⟩⟩

theorem hoursRun_cons (y m d : Int) (cmins : List Int) (h : Int) (hs mins : List Int) :
    hoursRun y m d cmins (h :: hs) mins =
      (dtsOfMins y m d h mins ++ (hoursRun y m d cmins hs cmins).1,
        (hoursRun y m d cmins hs cmins).2) := by
  cases hr : hoursRun y m d cmins hs cmins with
  | mk ys mo => simp [hoursRun, hr]

theorem daysRun_cons_le (y m maxd : Int) (chours cmins : List Int) (d : Int)
    (ds hours mins : List Int) (hd : ¬ maxd < d) :
    daysRun y m maxd chours cmins (d :: ds) hours mins =
      ((hoursRun y m d cmins hours mins).1 ++
        (daysRun y m maxd chours cmins ds chours (hoursRun y m d cmins hours mins).2).1,
       (daysRun y m maxd chours cmins ds chours (hoursRun y m d cmins hours mins).2).2) := by
  cases hr : hoursRun y m d cmins hours mins with
  | mk ys mo =>
    cases hq : daysRun y m maxd chours cmins ds chours mo with
    | mk ys2 st => simp [daysRun, hd, hr, hq]

theorem daysRun_cons_gt (y m maxd : Int) (chours cmins : List Int) (d : Int)
    (ds hours mins : List Int) (hd : maxd < d) :
    daysRun y m maxd chours cmins (d :: ds) hours mins = ([], hours, mins) := by
  simp [daysRun, hd]

theorem monthsRun_cons_none (cdays chours cmins : List Int) (y m : Int)
    (ms days hours mins : List Int) (hmd : monthdays y m = none) :
    monthsRun cdays chours cmins y (m :: ms) days hours mins = ([], none) := by
  simp [monthsRun, hmd]

theorem monthsRun_cons_some (cdays chours cmins : List Int) (y m maxd : Int)
    (ms days hours mins : List Int) (hmd : monthdays y m = some maxd) :
    monthsRun cdays chours cmins y (m :: ms) days hours mins =
      ((daysRun y m maxd chours cmins days hours mins).1 ++
        (monthsRun cdays chours cmins y ms cdays
          (daysRun y m maxd chours cmins days hours mins).2.1
          (daysRun y m maxd chours cmins days hours mins).2.2).1,
       (monthsRun cdays chours cmins y ms cdays
          (daysRun y m maxd chours cmins days hours mins).2.1
          (daysRun y m maxd chours cmins days hours mins).2.2).2) := by
  cases hp : daysRun y m maxd chours cmins days hours mins with
  | mk ys st =>
    cases hq : monthsRun cdays chours cmins y ms cdays st.1 st.2 with
    | mk ys2 stOut => simp [monthsRun, hmd, hp, hq]

theorem yearsRun_succ_err (c : CrontabV) (fuel : Nat) (y : Int)
    (months days hours mins : List Int)
    (h : (monthsRun c.day_of_month c.hour c.minute y months days hours mins).2 = none) :
    yearsRun c (fuel + 1) y months days hours mins =
      ((monthsRun c.day_of_month c.hour c.minute y months days hours mins).1, true) := by
  cases hm : monthsRun c.day_of_month c.hour c.minute y months days hours mins with
  | mk ys st =>
    rw [hm] at h
    subst h
    simp [yearsRun, hm]

theorem yearsRun_succ_ok (c : CrontabV) (fuel : Nat) (y : Int)
    (months days hours mins : List Int) (st : List Int × List Int × List Int)
    (h : (monthsRun c.day_of_month c.hour c.minute y months days hours mins).2 = some st) :
    yearsRun c (fuel + 1) y months days hours mins =
      ((monthsRun c.day_of_month c.hour c.minute y months days hours mins).1 ++
        (yearsRun c fuel (y + 1) c.month_of_year st.1 st.2.1 st.2.2).1,
       (yearsRun c fuel (y + 1) c.month_of_year st.1 st.2.1 st.2.2).2) := by
  cases hm : monthsRun c.day_of_month c.hour c.minute y months days hours mins with
  | mk ys st' =>
    rw [hm] at h
    subst h
    cases hq : yearsRun c fuel (y + 1) c.month_of_year st.1 st.2.1 st.2.2 with
    | mk ys2 err => simp [yearsRun, hm, hq]

theorem dtsOfMins_mem (y m d h : Int) (mins : List Int) :
    ∀ e ∈ dtsOfMins y m d h mins,
      e.y = y ∧ e.m = m ∧ e.d = d ∧ e.h = h ∧ e.mi ∈ mins := by
  intro e he
  simp only [dtsOfMins, List.mem_map] at he
  obtain ⟨mi, hmi, rfl⟩ := he
  exact ⟨rfl, rfl, rfl, rfl, hmi⟩

theorem hoursRun_snd (y m d : Int) (cmins : List Int) : ∀ (hours mins : List Int),
    (hoursRun y m d cmins hours mins).2 = mins ∨
      (hoursRun y m d cmins hours mins).2 = cmins := by
  intro hours
  induction hours with
  | nil => intro mins; exact Or.inl rfl
  | cons h hs ih =>
    intro mins
    rw [hoursRun_cons]
    rcases ih cmins with h1 | h1 <;> exact Or.inr h1

theorem hoursRun_mem (y m d : Int) (cmins : List Int) : ∀ (hours mins : List Int),
    ∀ e ∈ (hoursRun y m d cmins hours mins).1,
      e.y = y ∧ e.m = m ∧ e.d = d ∧ e.h ∈ hours ∧ (e.mi ∈ mins ∨ e.mi ∈ cmins) := by
  intro hours
  induction hours with
  | nil => intro mins e he; simp [hoursRun] at he
  | cons h hs ih =>
    intro mins e he
    rw [hoursRun_cons] at he
    rcases List.mem_append.mp he with h1 | h1
    · obtain ⟨hy, hm, hd, hh, hmi⟩ := dtsOfMins_mem y m d h mins e h1
      exact ⟨hy, hm, hd, by simp [hh], Or.inl hmi⟩
    · obtain ⟨hy, hm, hd, hh, hmi⟩ := ih cmins e h1
      refine ⟨hy, hm, hd, by simp [hh], ?_⟩
      rcases hmi with h2 | h2 <;> exact Or.inr h2

theorem daysRun_snd_hours (y m maxd : Int) (chours cmins : List Int) :
    ∀ (days hours mins : List Int),
      (daysRun y m maxd chours cmins days hours mins).2.1 = hours ∨
        (daysRun y m maxd chours cmins days hours mins).2.1 = chours := by
  intro days
  induction days with
  | nil => intro hours mins; exact Or.inl rfl
  | cons d ds ih =>
    intro hours mins
    by_cases hd : maxd < d
    · rw [daysRun_cons_gt _ _ _ _ _ _ _ _ _ hd]; exact Or.inl rfl
    · rw [daysRun_cons_le _ _ _ _ _ _ _ _ _ hd]
      rcases ih chours (hoursRun y m d cmins hours mins).2 with h1 | h1 <;> exact Or.inr h1

theorem daysRun_snd_mins (y m maxd : Int) (chours cmins : List Int) :
    ∀ (days hours mins : List Int),
      (daysRun y m maxd chours cmins days hours mins).2.2 = mins ∨
        (daysRun y m maxd chours cmins days hours mins).2.2 = cmins := by
  intro days
  induction days with
  | nil => intro hours mins; exact Or.inl rfl
  | cons d ds ih =>
    intro hours mins
    by_cases hd : maxd < d
    · rw [daysRun_cons_gt _ _ _ _ _ _ _ _ _ hd]; exact Or.inl rfl
    · rw [daysRun_cons_le _ _ _ _ _ _ _ _ _ hd]
      rcases ih chours (hoursRun y m d cmins hours mins).2 with h1 | h1
      · rw [h1]
        rcases hoursRun_snd y m d cmins hours mins with h2 | h2
        · exact Or.inl h2
        · exact Or.inr h2
      · exact Or.inr h1

theorem daysRun_mem (y m maxd : Int) (chours cmins : List Int) :
    ∀ (days hours mins : List Int),
      ∀ e ∈ (daysRun y m maxd chours cmins days hours mins).1,
        e.y = y ∧ e.m = m ∧ e.d ∈ days ∧ (e.h ∈ hours ∨ e.h ∈ chours) ∧
          (e.mi ∈ mins ∨ e.mi ∈ cmins) := by
  intro days
  induction days with
  | nil => intro hours mins e he; simp [daysRun] at he
  | cons d ds ih =>
    intro hours mins e he
    by_cases hd : maxd < d
    · rw [daysRun_cons_gt _ _ _ _ _ _ _ _ _ hd] at he; simp at he
    · rw [daysRun_cons_le _ _ _ _ _ _ _ _ _ hd] at he
      rcases List.mem_append.mp he with h1 | h1
      · obtain ⟨hy, hm, hdd, hh, hmi⟩ := hoursRun_mem y m d cmins hours mins e h1
        exact ⟨hy, hm, by simp [hdd], Or.inl hh, hmi⟩
      · obtain ⟨hy, hm, hdd, hh, hmi⟩ := ih chours (hoursRun y m d cmins hours mins).2 e h1
        refine ⟨hy, hm, by simp [hdd], ?_, ?_⟩
        · rcases hh with h2 | h2 <;> exact Or.inr h2
        · rcases hmi with h2 | h2
          · rcases hoursRun_snd y m d cmins hours mins with h3 | h3
            · rw [h3] at h2; exact Or.inl h2
            · rw [h3] at h2; exact Or.inr h2
          · exact Or.inr h2

theorem monthsRun_state (cdays chours cmins : List Int) (y : Int) :
    ∀ (months days hours mins : List Int) (st : List Int × List Int × List Int),
      (monthsRun cdays chours cmins y months days hours mins).2 = some st →
        (st.1 = days ∨ st.1 = cdays) ∧ (st.2.1 = hours ∨ st.2.1 = chours) ∧
          (st.2.2 = mins ∨ st.2.2 = cmins) := by
  intro months
  induction months with
  | nil =>
    intro days hours mins st h
    obtain rfl : st = (days, hours, mins) := (Option.some.inj h).symm
    exact ⟨Or.inl rfl, Or.inl rfl, Or.inl rfl⟩
  | cons m ms ih =>
    intro days hours mins st h
    cases hmd : monthdays y m with
    | none =>
      rw [monthsRun_cons_none _ _ _ _ _ _ _ _ _ hmd] at h
      exact absurd h (by simp)
    | some maxd =>
      rw [monthsRun_cons_some _ _ _ _ _ _ _ _ _ _ hmd] at h
      obtain ⟨hst1, hst2, hst3⟩ := ih cdays
        (daysRun y m maxd chours cmins days hours mins).2.1
        (daysRun y m maxd chours cmins days hours mins).2.2 st h
      refine ⟨?_, ?_, ?_⟩
      · rcases hst1 with h1 | h1 <;> exact Or.inr h1
      · rcases hst2 with h1 | h1
        · rw [h1]
          rcases daysRun_snd_hours y m maxd chours cmins days hours mins with h2 | h2
          · exact Or.inl h2
          · exact Or.inr h2
        · exact Or.inr h1
      · rcases hst3 with h1 | h1
        · rw [h1]
          rcases daysRun_snd_mins y m maxd chours cmins days hours mins with h2 | h2
          · exact Or.inl h2
          · exact Or.inr h2
        · exact Or.inr h1

theorem monthsRun_mem (cdays chours cmins : List Int) (y : Int) :
    ∀ (months days hours mins : List Int),
      ∀ e ∈ (monthsRun cdays chours cmins y months days hours mins).1,
        e.y = y ∧ e.m ∈ months ∧ (e.d ∈ days ∨ e.d ∈ cdays) ∧
          (e.h ∈ hours ∨ e.h ∈ chours) ∧ (e.mi ∈ mins ∨ e.mi ∈ cmins) := by
  intro months
  induction months with
  | nil => intro days hours mins e he; simp [monthsRun] at he
  | cons m ms ih =>
    intro days hours mins e he
    cases hmd : monthdays y m with
    | none =>
      rw [monthsRun_cons_none _ _ _ _ _ _ _ _ _ hmd] at he
      simp at he
    | some maxd =>
      rw [monthsRun_cons_some _ _ _ _ _ _ _ _ _ _ hmd] at he
      rcases List.mem_append.mp he with h1 | h1
      · obtain ⟨hy, hm, hdd, hh, hmi⟩ := daysRun_mem y m maxd chours cmins days hours mins e h1
        exact ⟨hy, by simp [hm], Or.inl hdd, hh, hmi⟩
      · obtain ⟨hy, hm, hdd, hh, hmi⟩ := ih cdays
          (daysRun y m maxd chours cmins days hours mins).2.1
          (daysRun y m maxd chours cmins days hours mins).2.2 e h1
        refine ⟨hy, by simp [hm], ?_, ?_, ?_⟩
        · rcases hdd with h2 | h2 <;> exact Or.inr h2
        · rcases hh with h2 | h2
          · rcases daysRun_snd_hours y m maxd chours cmins days hours mins with h3 | h3
            · rw [h3] at h2; exact Or.inl h2
            · rw [h3] at h2; exact Or.inr h2
          · exact Or.inr h2
        · rcases hmi with h2 | h2
          · rcases daysRun_snd_mins y m maxd chours cmins days hours mins with h3 | h3
            · rw [h3] at h2; exact Or.inl h2
            · rw [h3] at h2; exact Or.inr h2
          · exact Or.inr h2

theorem yearsRun_mem (c : CrontabV) : ∀ (fuel : Nat) (y : Int)
    (months days hours mins : List Int),
      ∀ e ∈ (yearsRun c fuel y months days hours mins).1,
        y ≤ e.y ∧ (e.m ∈ months ∨ e.m ∈ c.month_of_year) ∧
          (e.d ∈ days ∨ e.d ∈ c.day_of_month) ∧ (e.h ∈ hours ∨ e.h ∈ c.hour) ∧
          (e.mi ∈ mins ∨ e.mi ∈ c.minute) := by
  intro fuel
  induction fuel with
  | zero => intro y months days hours mins e he; simp [yearsRun] at he
  | succ fuel ih =>
    intro y months days hours mins e he
    cases hst : (monthsRun c.day_of_month c.hour c.minute y months days hours mins).2 with
    | none =>
      rw [yearsRun_succ_err _ _ _ _ _ _ _ hst] at he
      obtain ⟨hy, hm, hdd, hh, hmi⟩ := monthsRun_mem _ _ _ y months days hours mins e he
      exact ⟨le_of_eq hy.symm, Or.inl hm, hdd, hh, hmi⟩
    | some st =>
      rw [yearsRun_succ_ok _ _ _ _ _ _ _ _ hst] at he
      rcases List.mem_append.mp he with h1 | h1
      · obtain ⟨hy, hm, hdd, hh, hmi⟩ := monthsRun_mem _ _ _ y months days hours mins e h1
        exact ⟨le_of_eq hy.symm, Or.inl hm, hdd, hh, hmi⟩
      · obtain ⟨hy, hm, hdd, hh, hmi⟩ := ih (y + 1) c.month_of_year st.1 st.2.1 st.2.2 e h1
        obtain ⟨hs1, hs2, hs3⟩ := monthsRun_state _ _ _ y months days hours mins st hst
        refine ⟨by omega, ?_, ?_, ?_, ?_⟩
        · rcases hm with h2 | h2
          · exact Or.inr h2
          · exact Or.inr h2
        · rcases hdd with h2 | h2
          · rcases hs1 with h3 | h3
            · rw [h3] at h2; exact Or.inl h2
            · rw [h3] at h2; exact Or.inr h2
          · exact Or.inr h2
        · rcases hh with h2 | h2
          · rcases hs2 with h3 | h3
            · rw [h3] at h2; exact Or.inl h2
            · rw [h3] at h2; exact Or.inr h2
          · exact Or.inr h2
        · rcases hmi with h2 | h2
          · rcases hs3 with h3 | h3
            · rw [h3] at h2; exact Or.inl h2
            · rw [h3] at h2; exact Or.inr h2
          · exact Or.inr h2

theorem pairwise_dtsOfMins (y m d h : Int) (mins : List Int)
    (hm : mins.Pairwise (· < ·)) : (dtsOfMins y m d h mins).Pairwise DT.le := by
  unfold dtsOfMins
  rw [List.pairwise_map]
  refine hm.imp ?_
  intro a b hlt
  exact dtle_of_mi rfl rfl rfl rfl (le_of_lt hlt)

theorem hoursRun_pairwise (y m d : Int) (cmins : List Int)
    (hcm : cmins.Pairwise (· < ·)) :
    ∀ (hours mins : List Int), hours.Pairwise (· < ·) → mins.Pairwise (· < ·) →
      ((hoursRun y m d cmins hours mins).1).Pairwise DT.le := by
  intro hours
  induction hours with
  | nil => intro mins _ _; simp [hoursRun]
  | cons h hs ih =>
    intro mins hh hm
    rw [hoursRun_cons, List.pairwise_append]
    refine ⟨pairwise_dtsOfMins y m d h mins hm, ih cmins hh.of_cons hcm, ?_⟩
    intro x hx y' hy'
    obtain ⟨hxy, hxm, hxd, hxh, -⟩ := dtsOfMins_mem y m d h mins x hx
    obtain ⟨hyy, hym, hyd, hyh, -⟩ := hoursRun_mem y m d cmins hs cmins y' hy'
    rw [List.pairwise_cons] at hh
    exact dtle_of_h (hxy.trans hyy.symm) (hxm.trans hym.symm) (hxd.trans hyd.symm)
      (by rw [hxh]; exact hh.1 y'.h hyh)

theorem daysRun_pairwise (y m maxd : Int) (chours cmins : List Int)
    (hch : chours.Pairwise (· < ·)) (hcm : cmins.Pairwise (· < ·)) :
    ∀ (days hours mins : List Int), days.Pairwise (· < ·) → hours.Pairwise (· < ·) →
      mins.Pairwise (· < ·) →
      ((daysRun y m maxd chours cmins days hours mins).1).Pairwise DT.le := by
  intro days
  induction days with
  | nil => intro hours mins _ _ _; simp [daysRun]
  | cons d ds ih =>
    intro hours mins hds hh hm
    by_cases hd : maxd < d
    · rw [daysRun_cons_gt _ _ _ _ _ _ _ _ _ hd]; simp
    · rw [daysRun_cons_le _ _ _ _ _ _ _ _ _ hd, List.pairwise_append]
      have hm' : ((hoursRun y m d cmins hours mins).2).Pairwise (· < ·) := by
        rcases hoursRun_snd y m d cmins hours mins with h1 | h1
        · rw [h1]; exact hm
        · rw [h1]; exact hcm
      refine ⟨hoursRun_pairwise y m d cmins hcm hours mins hh hm,
        ih chours (hoursRun y m d cmins hours mins).2 hds.of_cons hch hm', ?_⟩
      intro x hx y' hy'
      obtain ⟨hxy, hxm, hxd, -, -⟩ := hoursRun_mem y m d cmins hours mins x hx
      obtain ⟨hyy, hym, hyd, -, -⟩ := daysRun_mem y m maxd chours cmins ds chours _ y' hy'
      rw [List.pairwise_cons] at hds
      exact dtle_of_d (hxy.trans hyy.symm) (hxm.trans hym.symm)
        (by rw [hxd]; exact hds.1 y'.d hyd)

theorem monthsRun_pairwise (cdays chours cmins : List Int) (y : Int)
    (hcd : cdays.Pairwise (· < ·)) (hch : chours.Pairwise (· < ·))
    (hcm : cmins.Pairwise (· < ·)) :
    ∀ (months days hours mins : List Int), months.Pairwise (· < ·) →
      days.Pairwise (· < ·) → hours.Pairwise (· < ·) → mins.Pairwise (· < ·) →
      ((monthsRun cdays chours cmins y months days hours mins).1).Pairwise DT.le := by
  intro months
  induction months with
  | nil => intro days hours mins _ _ _ _; simp [monthsRun]
  | cons m ms ih =>
    intro days hours mins hms hds hh hm
    cases hmd : monthdays y m with
    | none => rw [monthsRun_cons_none _ _ _ _ _ _ _ _ _ hmd]; simp
    | some maxd =>
      rw [monthsRun_cons_some _ _ _ _ _ _ _ _ _ _ hmd, List.pairwise_append]
      have hh' : ((daysRun y m maxd chours cmins days hours mins).2.1).Pairwise (· < ·) := by
        rcases daysRun_snd_hours y m maxd chours cmins days hours mins with h1 | h1
        · rw [h1]; exact hh
        · rw [h1]; exact hch
      have hm' : ((daysRun y m maxd chours cmins days hours mins).2.2).Pairwise (· < ·) := by
        rcases daysRun_snd_mins y m maxd chours cmins days hours mins with h1 | h1
        · rw [h1]; exact hm
        · rw [h1]; exact hcm
      refine ⟨daysRun_pairwise y m maxd chours cmins hch hcm days hours mins hds hh hm,
        ih cdays _ _ hms.of_cons hcd hh' hm', ?_⟩
      intro x hx y' hy'
      obtain ⟨hxy, hxm, -, -, -⟩ := daysRun_mem y m maxd chours cmins days hours mins x hx
      obtain ⟨hyy, hym, -, -, -⟩ := monthsRun_mem cdays chours cmins y ms cdays _ _ y' hy'
      rw [List.pairwise_cons] at hms
      exact dtle_of_m (hxy.trans hyy.symm) (by rw [hxm]; exact hms.1 y'.m hym)

theorem yearsRun_pairwise (c : CrontabV) (hcm : c.minute.Pairwise (· < ·))
    (hch : c.hour.Pairwise (· < ·)) (hcd : c.day_of_month.Pairwise (· < ·))
    (hcmo : c.month_of_year.Pairwise (· < ·)) :
    ∀ (fuel : Nat) (y : Int) (months days hours mins : List Int),
      months.Pairwise (· < ·) → days.Pairwise (· < ·) → hours.Pairwise (· < ·) →
      mins.Pairwise (· < ·) →
      ((yearsRun c fuel y months days hours mins).1).Pairwise DT.le := by
  intro fuel
  induction fuel with
  | zero => intro y months days hours mins _ _ _ _; simp [yearsRun]
  | succ fuel ih =>
    intro y months days hours mins hms hds hh hm
    cases hst : (monthsRun c.day_of_month c.hour c.minute y months days hours mins).2 with
    | none =>
      rw [yearsRun_succ_err _ _ _ _ _ _ _ hst]
      exact monthsRun_pairwise _ _ _ y hcd hch hcm months days hours mins hms hds hh hm
    | some st =>
      rw [yearsRun_succ_ok _ _ _ _ _ _ _ _ hst, List.pairwise_append]
      obtain ⟨hs1, hs2, hs3⟩ := monthsRun_state _ _ _ y months days hours mins st hst
      have hst1 : (st.1).Pairwise (· < ·) := by
        rcases hs1 with h1 | h1 <;> rw [h1]
        · exact hds
        · exact hcd
      have hst2 : (st.2.1).Pairwise (· < ·) := by
        rcases hs2 with h1 | h1 <;> rw [h1]
        · exact hh
        · exact hch
      have hst3 : (st.2.2).Pairwise (· < ·) := by
        rcases hs3 with h1 | h1 <;> rw [h1]
        · exact hm
        · exact hcm
      refine ⟨monthsRun_pairwise _ _ _ y hcd hch hcm months days hours mins hms hds hh hm,
        ih (y + 1) c.month_of_year st.1 st.2.1 st.2.2 hcmo hst1 hst2 hst3, ?_⟩
      intro x hx y' hy'
      obtain ⟨hxy, -, -, -, -⟩ := monthsRun_mem _ _ _ y months days hours mins x hx
      obtain ⟨hyy, -, -, -, -⟩ := yearsRun_mem c fuel (y + 1) c.month_of_year st.1 st.2.1 st.2.2 y' hy'
      exact dtle_of_y (by omega)

theorem scanGe_suffix (val : Int) : ∀ (l : List Int) (v : Int) (rest : List Int),
    scanGe val l = some (v, rest) → (v :: rest) <:+ l := by
  intro l
  induction l with
  | nil => intro v rest h; simp [scanGe] at h
  | cons x xs ih =>
    intro v rest h
    unfold scanGe at h
    split at h
    · have hinj := Option.some.inj h
      simp only [Prod.mk.injEq] at hinj
      obtain ⟨rfl, rfl⟩ := hinj
      exact List.suffix_refl _
    · exact (ih v rest h).trans (List.suffix_cons x xs)

theorem forall2_suffix_refl : ∀ l : List (List Int), List.Forall₂ (· <:+ ·) l l := by
  intro l
  induction l with
  | nil => exact List.Forall₂.nil
  | cons x xs ih => exact List.Forall₂.cons (List.suffix_refl x) ih

theorem rewind_suffix : ∀ (vals : List Int) (chains : List (List Int)),
    vals.length = chains.length →
    List.Forall₂ (· <:+ ·) (rewind vals chains).2 chains := by
  intro vals
  induction vals with
  | nil =>
    intro chains hlen
    cases chains with
    | nil => exact List.Forall₂.nil
    | cons c cs => simp at hlen
  | cons val vs ih =>
    intro chains hlen
    cases chains with
    | nil => exact List.Forall₂.nil
    | cons chain cs =>
      simp only [List.length_cons] at hlen
      unfold rewind
      cases hs : scanGe val chain with
      | none => exact forall2_suffix_refl _
      | some p =>
        obtain ⟨v, rest⟩ := p
        have hsuf : (v :: rest) <:+ chain := scanGe_suffix val chain v rest hs
        by_cases hv : val < v
        · simp only [if_pos hv]
          exact List.Forall₂.cons hsuf (forall2_suffix_refl cs)
        · simp only [if_neg hv]
          cases hr : rewind vs cs with
          | mk restarted restOut =>
            have hihl := ih cs (by omega)
            rw [hr] at hihl
            refine List.Forall₂.cons ?_ hihl
            cases restarted
            · simpa using hsuf
            · have htl : rest <:+ v :: rest := List.suffix_cons v rest
              simpa using htl.trans hsuf

/-- Claim C2 counterexample.  The schedule generator of
`crontab(0, 0, 1, "*", "*")` — minute 0, hour 0, day-of-month 1, every
month — does NOT yield an infinite sequence: because `*` expands
month-of-year to `[1..13]` (claim C1's bug), the generator reaches
`monthrange(y, 13)`, which raises `IllegalMonthError`; started at
2020-01-01 00:00 it dies inside its first year, after only 12 yields. -/
theorem c2_counterexample :
    crontab_new (.int 0) (.int 0) (.int 1) (.str "*".toList) (.str "*".toList) =
      .ok ⟨[0], [0], [0, 1, 2, 3, 4, 5, 6], [1],
            [1, 2, 3, 4, 5, 6, 7, 8, 9, 10, 11, 12, 13]⟩ ∧
    (crontab_start ⟨[0], [0], [0, 1, 2, 3, 4, 5, 6], [1],
        [1, 2, 3, 4, 5, 6, 7, 8, 9, 10, 11, 12, 13]⟩ ⟨2020, 1, 1, 0, 0⟩ 1).2 = true ∧
    (crontab_start ⟨[0], [0], [0, 1, 2, 3, 4, 5, 6], [1],
        [1, 2, 3, 4, 5, 6, 7, 8, 9, 10, 11, 12, 13]⟩ ⟨2020, 1, 1, 0, 0⟩ 1).1.length = 12 := by
  refine ⟨by decide, by decide, by decide⟩

/-- Claim C2 as amended: for every crontab whose expanded field lists are
strictly increasing (which holds for every int- or string-specified field)
and every start instant, the sequence of instants the generator yields —
up to any point where it raises `IllegalMonthError`, and over any number of
scanned years — is non-decreasing, and every yielded instant's minute,
hour, day-of-month and month-of-year belong to the crontab's expanded
field sets. -/
theorem c2_amended (c : CrontabV) (s : DT) (fuel : Nat)
    (hmin : c.minute.Pairwise (· < ·)) (hhr : c.hour.Pairwise (· < ·))
    (hdom : c.day_of_month.Pairwise (· < ·)) (hmoy : c.month_of_year.Pairwise (· < ·)) :
    List.Chain' DT.le (crontab_start c s fuel).1 ∧
    ∀ e ∈ (crontab_start c s fuel).1,
      e.mi ∈ c.minute ∧ e.h ∈ c.hour ∧ e.d ∈ c.day_of_month ∧ e.m ∈ c.month_of_year := by
  have hsuf := rewind_suffix [s.m, s.d, s.h, s.mi]
    [c.month_of_year, c.day_of_month, c.hour, c.minute] rfl
  unfold crontab_start
  cases hr : rewind [s.m, s.d, s.h, s.mi]
      [c.month_of_year, c.day_of_month, c.hour, c.minute] with
  | mk complete chains =>
    rw [hr] at hsuf
    simp only at hsuf
    cases hsuf with
    | cons h1 hsuf =>
      cases hsuf with
      | cons h2 hsuf =>
        cases hsuf with
        | cons h3 hsuf =>
          cases hsuf with
          | cons h4 hsuf =>
            cases hsuf
            rename_i months days hours mins
            simp only
            constructor
            · refine List.Pairwise.chain' ?_
              exact yearsRun_pairwise c hmin hhr hdom hmoy fuel _ months days hours mins
                (hmoy.sublist h1.sublist) (hdom.sublist h2.sublist)
                (hhr.sublist h3.sublist) (hmin.sublist h4.sublist)
            · intro e he
              obtain ⟨-, hm, hd, hh, hmi⟩ :=
                yearsRun_mem c fuel _ months days hours mins e he
              refine ⟨?_, ?_, ?_, ?_⟩
              · rcases hmi with h | h
                · exact h4.subset h
                · exact h
              · rcases hh with h | h
                · exact h3.subset h
                · exact h
              · rcases hd with h | h
                · exact h2.subset h
                · exact h
              · rcases hm with h | h
                · exact h1.subset h
                · exact h

/-- Witness for the amended C2: a concrete strictly-sorted crontab
(minute {0,30}, hour {5}, day-of-month {1}, month {3}), start
2021-01-15 12:00, two years of fuel. -/
theorem c2_witness :
    List.Chain' DT.le (crontab_start ⟨[0, 30], [5], [0], [1], [3]⟩
      ⟨2021, 1, 15, 12, 0⟩ 2).1 ∧
    ∀ e ∈ (crontab_start ⟨[0, 30], [5], [0], [1], [3]⟩ ⟨2021, 1, 15, 12, 0⟩ 2).1,
      e.mi ∈ [(0 : Int), 30] ∧ e.h ∈ [(5 : Int)] ∧ e.d ∈ [(1 : Int)] ∧ e.m ∈ [(3 : Int)] :=
  c2_amended ⟨[0, 30], [5], [0], [1], [3]⟩ ⟨2021, 1, 15, 12, 0⟩ 2
    (by decide) (by decide) (by decide) (by decide)

end Broccoli
